import Mathlib

/-!
Verification of the file-tree construction algorithm of `gzpi` (`src/walk.rs`).

Filesystem paths are modelled as lists of path segments (the components that
iterating over a Rust `Path` yields); machine `usize` indices are `Nat`.
The `id_tree` arena tree is modelled as a list of nodes addressed by their
insertion index (`NodeId`), the `HashMap<String, NodeId>` as a function
`String → Option Nat`, and the asynchronous `async_walkdir` stream as the
list of results it yields.  Rust panics (`expect`) and the `anyhow` errors
propagated with `?` are both modelled as `Except` failures, with a
distinguished constructor per abort site.  The `sort_unstable_by_key` /
`sort_children_by_key` calls are modelled by a structurally recursive
insertion sort; the contract used by the code (the result is a permutation
sorted by the key) is proved below.
-/

namespace Gzpi

/-- Scalar-value lexicographic comparison of character lists; on UTF-8 data
this coincides with the byte-lexicographic `Ord` of Rust's `String`. -/
def charListLe : List Char → List Char → Bool
  | [], _ => true
  | _ :: _, [] => false
  | a :: as, b :: bs =>
    if a < b then true else if b < a then false else charListLe as bs

/-- Lexicographic comparison of strings, mirroring Rust `String` ordering. -/
def strLe (a b : String) : Bool := charListLe a.data b.data

theorem charListLe_total (as bs : List Char) :
    charListLe as bs = true ∨ charListLe bs as = true := by
  induction as generalizing bs with
  | nil => left; rfl
  | cons a as ih =>
    cases bs with
    | nil => right; rfl
    | cons b bs =>
      by_cases hab : a < b
      · left; simp [charListLe, hab]
      · by_cases hba : b < a
        · right; simp [charListLe, hba, asymm hba]
        · have := ih bs
          simpa [charListLe, hab, hba] using this

theorem charListLe_trans {as bs cs : List Char} (h1 : charListLe as bs = true)
    (h2 : charListLe bs cs = true) : charListLe as cs = true := by
  induction as generalizing bs cs with
  | nil => rfl
  | cons a as ih =>
    cases bs with
    | nil => simp [charListLe] at h1
    | cons b bs =>
      cases cs with
      | nil => simp [charListLe] at h2
      | cons c cs =>
        by_cases hab : a < b
        · by_cases hbc : b < c
          · simp [charListLe, lt_trans hab hbc]
          · by_cases hcb : c < b
            · simp [charListLe, hbc, hcb] at h2
            · have hbc' : b = c := le_antisymm (not_lt.mp hcb) (not_lt.mp hbc)
              subst hbc'
              simp [charListLe, hab]
        · by_cases hba : b < a
          · simp [charListLe, hab, hba] at h1
          · have hab' : a = b := le_antisymm (not_lt.mp hba) (not_lt.mp hab)
            subst hab'
            simp only [charListLe, if_neg (lt_irrefl a)] at h1
            by_cases hac : a < c
            · simp [charListLe, hac]
            · by_cases hca : c < a
              · simp [charListLe, hac, hca] at h2
              · simp only [charListLe, if_neg hac, if_neg hca] at h2 ⊢
                exact ih h1 h2

theorem charListLe_antisymm {as bs : List Char} (h1 : charListLe as bs = true)
    (h2 : charListLe bs as = true) : as = bs := by
  induction as generalizing bs with
  | nil =>
    cases bs with
    | nil => rfl
    | cons b bs => simp [charListLe] at h2
  | cons a as ih =>
    cases bs with
    | nil => simp [charListLe] at h1
    | cons b bs =>
      by_cases hab : a < b
      · simp [charListLe, hab, asymm hab] at h2
      · by_cases hba : b < a
        · simp [charListLe, hab, hba] at h1
        · have hab' : a = b := le_antisymm (not_lt.mp hba) (not_lt.mp hab)
          subst hab'
          simp only [charListLe, if_neg (lt_irrefl a)] at h1 h2
          exact congrArg (a :: ·) (ih h1 h2)

theorem strLe_total (a b : String) : strLe a b = true ∨ strLe b a = true :=
  charListLe_total a.data b.data

theorem strLe_trans {a b c : String} (h1 : strLe a b = true)
    (h2 : strLe b c = true) : strLe a c = true :=
  charListLe_trans h1 h2

theorem strLe_antisymm {a b : String} (h1 : strLe a b = true)
    (h2 : strLe b a = true) : a = b :=
  String.ext (charListLe_antisymm h1 h2)

/-- Insert an element into a list, in front of the first element it compares
`le` to.  Building block of the model of the Rust sorting calls. -/
def insertSorted (le : α → α → Bool) (a : α) : List α → List α
  | [] => [a]
  | b :: l => if le a b then a :: b :: l else b :: insertSorted le a l

/-- Insertion sort; models `sort_unstable_by_key` / `sort_children_by_key`
through the contract the code relies on: a permutation of the input that is
sorted by the key. -/
def sortBy (le : α → α → Bool) : List α → List α
  | [] => []
  | a :: l => insertSorted le a (sortBy le l)

theorem insertSorted_perm (le : α → α → Bool) (a : α) (l : List α) :
    (insertSorted le a l).Perm (a :: l) := by
  induction l with
  | nil => exact List.Perm.refl _
  | cons b l ih =>
    by_cases h : le a b
    · simp [insertSorted, h]
    · simp only [insertSorted, if_neg h]
      exact ((ih.cons b).trans (List.Perm.swap a b l))

theorem sortBy_perm (le : α → α → Bool) (l : List α) :
    (sortBy le l).Perm l := by
  induction l with
  | nil => exact List.Perm.refl _
  | cons a l ih =>
    exact (insertSorted_perm le a (sortBy le l)).trans (ih.cons a)

theorem mem_sortBy {le : α → α → Bool} {l : List α} {x : α} :
    x ∈ sortBy le l ↔ x ∈ l :=
  (sortBy_perm le l).mem_iff

theorem pairwise_insertSorted {le : α → α → Bool}
    (htr : ∀ x y z, le x y = true → le y z = true → le x z = true)
    (hto : ∀ x y, le x y = true ∨ le y x = true)
    {a : α} {l : List α} (h : l.Pairwise (fun x y => le x y = true)) :
    (insertSorted le a l).Pairwise (fun x y => le x y = true) := by
  induction l with
  | nil => simp [insertSorted]
  | cons b l ih =>
    rcases List.pairwise_cons.mp h with ⟨hb, hl⟩
    by_cases hab : le a b
    · simp only [insertSorted, if_pos hab]
      refine List.pairwise_cons.mpr ⟨?_, h⟩
      intro y hy
      rcases List.mem_cons.mp hy with rfl | hy
      · exact hab
      · exact htr a b y hab (hb _ hy)
    · simp only [insertSorted, if_neg hab]
      refine List.pairwise_cons.mpr ⟨?_, ih hl⟩
      intro y hy
      have hba : le b a = true := (hto a b).resolve_left (fun h' => hab h')
      have hy' := (insertSorted_perm le a l).mem_iff.mp hy
      rcases List.mem_cons.mp hy' with rfl | hy'
      · exact hba
      · exact hb _ hy'

theorem pairwise_sortBy (le : α → α → Bool)
    (htr : ∀ x y z, le x y = true → le y z = true → le x z = true)
    (hto : ∀ x y, le x y = true ∨ le y x = true) (l : List α) :
    (sortBy le l).Pairwise (fun x y => le x y = true) := by
  induction l with
  | nil => simp [sortBy]
  | cons a l ih => exact pairwise_insertSorted htr hto ih

/-! ## The data model of `walk.rs` -/

/-- `Item` from `walk.rs`: a discovered filesystem object.  The `PathBuf` is
modelled by its list of components. -/
structure Item where
  path : List String
  is_file : Bool
deriving DecidableEq

/-- One slot of the `id_tree` arena: the stored `Item` plus the `NodeId`s of
the node's children, in order. -/
structure TreeNode where
  data : Item
  children : List Nat
deriving DecidableEq

instance : Inhabited TreeNode := ⟨⟨⟨[], false⟩, []⟩⟩

/-- `id_tree::Tree<Item>`: the arena of nodes (a `NodeId` is the index at
which a node was inserted) together with the optional root id. -/
structure IdTree where
  nodes : List TreeNode
  root : Option Nat
deriving DecidableEq

/-- The abort sites of `walk_dir` / `create_file_tree`: an error yielded by
the `async_walkdir` stream or by the metadata fetch (propagated with `?`),
the two `expect` panics of the insertion loop, and the `id_tree`
`NodeIdError` that `insert` / `sort_children_by_key` would return for an
invalid node id. -/
inductive BuildFailure where
  /-- an I/O error from the walker stream or the metadata fetch;
  the payload identifies the underlying error value -/
  | walkError (code : Nat)
  /-- the panic `item doesn't have parent path` -/
  | panicNoParent
  /-- the panic `parent not in node id map`: the orphan-entry abort -/
  | panicOrphan
  /-- `id_tree`'s error for an unknown `NodeId` -/
  | invalidNodeId
deriving DecidableEq

/-- The node stored at id `i` (arbitrary default for out-of-range ids, which
never occur in reachable trees). -/
def nodeAt (t : IdTree) (i : Nat) : TreeNode := t.nodes.getD i default

def childrenOf (t : IdTree) (i : Nat) : List Nat := (nodeAt t i).children

def pathAt (t : IdTree) (i : Nat) : List String := (nodeAt t i).data.path

/-- `path_key` from `walk_dir`: the components joined with `/` and no
trailing separator (`Vec::join("/")`).  Components of a real path are valid
UTF-8 segments here, so the `filter_map(OsStr::to_str)` step is the
identity. -/
def path_key : List String → String
  | [] => ""
  | [s] => s
  | s :: rest => s ++ "/" ++ path_key rest

/-- `Path::parent`: drop the last component; `None` for an empty path. -/
def parentPath : List String → Option (List String)
  | [] => none
  | s :: rest => some ((s :: rest).dropLast)

/-- The sort key used by `sort_children_by_key`: the `path_key` of the item
held by the child node. -/
def childKey (t : IdTree) (c : Nat) : String := path_key (pathAt t c)

/-- `tree.insert(Node::new(item), InsertBehavior::UnderNode(&parent_id))`:
append a fresh node to the arena and record it as the last child of
`parent_id`; an unknown id is a `NodeIdError`. -/
def insertUnder (t : IdTree) (parent_id : Nat) (item : Item) :
    Except BuildFailure (IdTree × Nat) :=
  if parent_id < t.nodes.length then
    let node_id := t.nodes.length
    let pn := nodeAt t parent_id
    .ok (⟨(t.nodes.set parent_id { pn with children := pn.children ++ [node_id] })
            ++ [⟨item, []⟩], t.root⟩, node_id)
  else .error .invalidNodeId

/-- `tree.sort_children_by_key(parent_id, |node| path_key(&node.data().path))`. -/
def sortChildren (t : IdTree) (i : Nat) : Except BuildFailure IdTree :=
  if i < t.nodes.length then
    let nd := nodeAt t i
    .ok ⟨t.nodes.set i
          { nd with children :=
              sortBy (fun a b => strLe (childKey t a) (childKey t b)) nd.children },
        t.root⟩
  else .error .invalidNodeId

/-- The `HashMap<String, NodeId>` of `walk_dir`, as a lookup function. -/
def NodeIdMap := String → Option Nat

def NodeIdMap.empty : NodeIdMap := fun _ => none

def NodeIdMap.insert (m : NodeIdMap) (k : String) (v : Nat) : NodeIdMap :=
  fun q => if q = k then some v else m q

/-- The mutable state of `walk_dir`'s insertion loop: the tree under
construction and the path-to-handle index `node_id_map`. -/
structure BuildState where
  tree : IdTree
  node_id_map : NodeIdMap

/-- The state of `walk_dir` just before the insertion loop: a fresh tree
whose root node is built from `{path, is_file: false}` (inserted `AsRoot`,
hence id `0`), with the root's canonical key registered in the index. -/
def initState (path : List String) : BuildState :=
  { tree := ⟨[⟨⟨path, false⟩, []⟩], some 0⟩
    node_id_map := NodeIdMap.empty.insert (path_key path) 0 }

/-- The body of `walk_dir`'s `for item in items` loop. -/
def insertItem (s : BuildState) (item : Item) : Except BuildFailure BuildState :=
  match parentPath item.path with
  | none => .error .panicNoParent
  | some parent =>
    match s.node_id_map (path_key parent) with
    | none => .error .panicOrphan
    | some parent_id =>
      let node_id_key := path_key item.path
      match insertUnder s.tree parent_id item with
      | .error e => .error e
      | .ok (t1, node_id) =>
        match sortChildren t1 parent_id with
        | .error e => .error e
        | .ok t2 => .ok ⟨t2, s.node_id_map.insert node_id_key node_id⟩

/-- The insertion loop itself: the first failing insertion aborts the walk. -/
def processItems : BuildState → List Item → Except BuildFailure BuildState
  | s, [] => .ok s
  | s, item :: rest =>
    match insertItem s item with
    | .error e => .error e
    | .ok s2 => processItems s2 rest

/-- `items.sort_unstable_by_key(|item| item.path.iter().count())`: order the
collected items by their number of path components, ascending. -/
def sortItems (items : List Item) : List Item :=
  sortBy (fun a b => decide (a.path.length ≤ b.path.length)) items

/-- The pure tail of `walk_dir`, applied once the walker stream has been
drained into `items`: sort by depth, create the root, run the insertion
loop and return the finished tree. -/
def buildTree (path : List String) (items : List Item) :
    Except BuildFailure IdTree :=
  match processItems (initState path) (sortItems items) with
  | .error e => .error e
  | .ok s => .ok s.tree

/-- The part of `std::fs::Metadata` the code reads. -/
structure Metadata where
  is_file : Bool
deriving DecidableEq

/-- One entry yielded by the `async_walkdir` stream; its `metadata()` fetch
may itself fail. -/
structure DirEntry where
  path : List String
  metadata : Except Nat Metadata

/-- The `while let Some(entry) = walker.next().await` collection loop of
`walk_dir`: each step is `entry?` followed by `entry.metadata().await?`;
the first error aborts the whole collection. -/
def collectItems : List (Except Nat DirEntry) → Except BuildFailure (List Item)
  | [] => .ok []
  | step :: rest =>
    match step with
    | .error e => .error (.walkError e)
    | .ok entry =>
      match entry.metadata with
      | .error e => .error (.walkError e)
      | .ok m =>
        match collectItems rest with
        | .error e => .error e
        | .ok items => .ok (⟨entry.path, m.is_file⟩ :: items)

/-- `walk_dir`: drain the walker stream, then build the tree.  The walker's
output is passed in as the list of results the stream yields. -/
def walk_dir (path : List String) (steps : List (Except Nat DirEntry))
    (_use_git_ignore : Bool) : Except BuildFailure IdTree :=
  match collectItems steps with
  | .error e => .error e
  | .ok items => buildTree path items

/-- The `TreeBuilder::new().with_root(Node::new(Item { path, is_file: true }))
.build()` tree of the single-file branch of `create_file_tree`. -/
def single_file_tree (path : List String) : IdTree :=
  ⟨[⟨⟨path, true⟩, []⟩], some 0⟩

/-- `create_file_tree`: the public entry point.  The result of the
`path.is_file()` filesystem check is passed in as `path_is_file`. -/
def create_file_tree (path : List String) (path_is_file : Bool)
    (steps : List (Except Nat DirEntry)) (use_git_ignore : Bool) :
    Except BuildFailure IdTree :=
  if path_is_file then .ok (single_file_tree path)
  else walk_dir path steps use_git_ignore

/-! ## Pre-order traversal (`tree.traverse_pre_order`) -/

/-- Fuel-indexed pre-order walk from node `i`: the node itself, then the
subtrees of its children in order. -/
def preorderAux (t : IdTree) : Nat → Nat → List Nat
  | 0, _ => []
  | fuel + 1, i => i :: (childrenOf t i).flatMap (fun c => preorderAux t fuel c)

/-- The ids visited by `traverse_pre_order` from the root; in every tree the
builder produces, `t.nodes.length` fuel is enough to exhaust the tree. -/
def preorderIds (t : IdTree) : List Nat :=
  match t.root with
  | none => []
  | some r => preorderAux t t.nodes.length r

/-- The pre-order sequence of node paths, the observable output order. -/
def preorderPaths (t : IdTree) : List (List String) :=
  (preorderIds t).map (pathAt t)

/-! ## Canonical path keys -/

/-- A well-formed path component: nonempty and free of the `/` separator,
as the components of a real (relative) Rust path are. -/
def validSeg (s : String) : Prop := s ≠ "" ∧ ∀ c ∈ s.data, c ≠ '/'

instance (s : String) : Decidable (validSeg s) := by
  unfold validSeg; infer_instance

def validSegs (p : List String) : Prop := ∀ s ∈ p, validSeg s

instance (p : List String) : Decidable (validSegs p) := by
  unfold validSegs; infer_instance

theorem path_key_nil : path_key [] = "" := rfl

theorem path_key_single (s : String) : path_key [s] = s := rfl

theorem path_key_cons (s r : String) (rest : List String) :
    path_key (s :: r :: rest) = s ++ "/" ++ path_key (r :: rest) := rfl

theorem path_key_cons_data (s r : String) (rest : List String) :
    (path_key (s :: r :: rest)).data = s.data ++ '/' :: (path_key (r :: rest)).data := by
  rw [path_key_cons, String.data_append, String.data_append, List.append_assoc]
  rfl

theorem path_key_data_ne_nil {q : String} {qs : List String} (hq : validSeg q) :
    (path_key (q :: qs)).data ≠ [] := by
  have hqd : q.data ≠ [] := by
    intro h
    exact hq.1 (String.ext h)
  cases qs with
  | nil => simpa [path_key_single] using hqd
  | cons r rest =>
    rw [path_key_cons_data]
    intro h
    exact hqd (List.append_eq_nil.mp h).1

/-- Splitting two char lists at the first separator: slash-free left parts
of equal-separator concatenations coincide. -/
theorem slash_split {la lb X Y : List Char}
    (ha : ∀ c ∈ la, c ≠ '/') (hb : ∀ c ∈ lb, c ≠ '/')
    (h : la ++ '/' :: X = lb ++ '/' :: Y) : la = lb ∧ X = Y := by
  induction la generalizing lb with
  | nil =>
    cases lb with
    | nil => simpa using h
    | cons b bs =>
      simp only [List.nil_append, List.cons_append, List.cons.injEq] at h
      exact absurd h.1.symm (hb b (List.mem_cons_self _ _))
  | cons a as ih =>
    cases lb with
    | nil =>
      simp only [List.nil_append, List.cons_append, List.cons.injEq] at h
      exact absurd h.1 (ha a (List.mem_cons_self _ _))
    | cons b bs =>
      simp only [List.cons_append, List.cons.injEq] at h
      obtain ⟨rfl, h2⟩ := h
      have := ih (fun c hc => ha c (List.mem_cons_of_mem _ hc))
        (fun c hc => hb c (List.mem_cons_of_mem _ hc)) h2
      exact ⟨by rw [this.1], this.2⟩

/-- On well-formed components the canonical key is injective: two paths get
equal keys exactly when they are the same segment sequence. -/
theorem path_key_inj : ∀ (p q : List String), validSegs p → validSegs q →
    path_key p = path_key q → p = q := by
  intro p
  induction p with
  | nil =>
    intro q _ hq h
    cases q with
    | nil => rfl
    | cons b bs =>
      exact absurd (congrArg String.data h).symm
        (path_key_data_ne_nil (hq b (List.mem_cons_self _ _)))
  | cons a as ih =>
    intro q hp hq h
    cases q with
    | nil =>
      exact absurd (congrArg String.data h)
        (path_key_data_ne_nil (hp a (List.mem_cons_self _ _)))
    | cons b bs =>
      have hva := hp a (List.mem_cons_self _ _)
      have hvb := hq b (List.mem_cons_self _ _)
      cases as with
      | nil =>
        cases bs with
        | nil => simpa [path_key_single] using h
        | cons b2 bs2 =>
          have hd := congrArg String.data h
          rw [path_key_single, path_key_cons_data] at hd
          exact absurd (hd ▸ List.mem_append_right b.data (List.mem_cons_self _ _))
            (fun hc => hva.2 '/' hc rfl)
      | cons a2 as2 =>
        cases bs with
        | nil =>
          have hd := congrArg String.data h
          rw [path_key_single, path_key_cons_data] at hd
          exact absurd (hd.symm ▸ List.mem_append_right a.data (List.mem_cons_self _ _))
            (fun hc => hvb.2 '/' hc rfl)
        | cons b2 bs2 =>
          have hd := congrArg String.data h
          rw [path_key_cons_data, path_key_cons_data] at hd
          obtain ⟨h1, h2⟩ := slash_split hva.2 hvb.2 hd
          have hab : a = b := String.ext h1
          have htail : (a2 :: as2) = (b2 :: bs2) :=
            ih (b2 :: bs2) (fun s hs => hp s (List.mem_cons_of_mem _ hs))
              (fun s hs => hq s (List.mem_cons_of_mem _ hs)) (String.ext h2)
          rw [hab, htail]

/-! ## Characterizing one iteration of the insertion loop -/

/-- The tree after `tree.insert(..., UnderNode(&parent_id))` but before
`sort_children_by_key`. -/
def midTree (t : IdTree) (pid : Nat) (item : Item) : IdTree :=
  ⟨(t.nodes.set pid
      { nodeAt t pid with children := (nodeAt t pid).children ++ [t.nodes.length] })
    ++ [⟨item, []⟩], t.root⟩

/-- The sort ordering `sort_children_by_key` applies while processing one
item: compare child ids of the post-insertion tree by canonical key. -/
def stepLe (t : IdTree) (pid : Nat) (item : Item) (a b : Nat) : Bool :=
  strLe (childKey (midTree t pid item) a) (childKey (midTree t pid item) b)

/-- The tree after a full loop iteration: the fresh node appended, recorded
as child of `pid`, and `pid`'s children re-sorted by canonical key. -/
def stepTree (t : IdTree) (pid : Nat) (item : Item) : IdTree :=
  let cs := sortBy (stepLe t pid item) ((nodeAt t pid).children ++ [t.nodes.length])
  ⟨(t.nodes.set pid { nodeAt t pid with children := cs }) ++ [⟨item, []⟩], t.root⟩

theorem insertItem_noParent {s : BuildState} {item : Item}
    (h : parentPath item.path = none) :
    insertItem s item = .error .panicNoParent := by
  simp only [insertItem, h]

theorem insertItem_orphan {s : BuildState} {item : Item} {par : List String}
    (h1 : parentPath item.path = some par)
    (h2 : s.node_id_map (path_key par) = none) :
    insertItem s item = .error .panicOrphan := by
  simp only [insertItem, h1, h2]

theorem nodeAt_midTree_lt {t : IdTree} {pid i : Nat} {item : Item}
    (_hpid : pid < t.nodes.length) (hi : i < t.nodes.length) :
    (nodeAt (midTree t pid item) i).data = (nodeAt t i).data := by
  unfold midTree nodeAt
  by_cases hip : i = pid
  · subst hip
    rw [List.getD_eq_getElem?_getD, List.getElem?_append_left (by simpa using hi),
      List.getElem?_set_self (by simpa using hi), List.getD_eq_getElem?_getD,
      List.getElem?_eq_getElem hi]
    simp [List.getD]
  · rw [List.getD_eq_getElem?_getD, List.getElem?_append_left (by simpa using hi),
      List.getElem?_set_ne (fun h => hip h.symm), List.getD_eq_getElem?_getD]

theorem nodeAt_midTree_new {t : IdTree} {pid : Nat} {item : Item}
    (_hpid : pid < t.nodes.length) :
    nodeAt (midTree t pid item) t.nodes.length = ⟨item, []⟩ := by
  unfold midTree nodeAt
  rw [List.getD_eq_getElem?_getD, List.getElem?_append_right (by simp)]
  simp

theorem childKey_midTree_lt {t : IdTree} {pid a : Nat} {item : Item}
    (hpid : pid < t.nodes.length) (ha : a < t.nodes.length) :
    childKey (midTree t pid item) a = childKey t a := by
  unfold childKey pathAt
  rw [nodeAt_midTree_lt hpid ha]

theorem childKey_midTree_new {t : IdTree} {pid : Nat} {item : Item}
    (hpid : pid < t.nodes.length) :
    childKey (midTree t pid item) t.nodes.length = path_key item.path := by
  unfold childKey pathAt
  rw [nodeAt_midTree_new hpid]

theorem midTree_nodes_length (t : IdTree) (pid : Nat) (item : Item) :
    (midTree t pid item).nodes.length = t.nodes.length + 1 := by
  unfold midTree
  simp

theorem insertUnder_eq_ok {t : IdTree} {pid : Nat} {item : Item}
    (h3 : pid < t.nodes.length) :
    insertUnder t pid item = .ok (midTree t pid item, t.nodes.length) := by
  unfold insertUnder midTree
  rw [if_pos h3]

theorem nodeAt_midTree_pid {t : IdTree} {pid : Nat} {item : Item}
    (h3 : pid < t.nodes.length) :
    nodeAt (midTree t pid item) pid =
      { nodeAt t pid with children := (nodeAt t pid).children ++ [t.nodes.length] } := by
  unfold midTree nodeAt
  rw [List.getD_eq_getElem?_getD, List.getElem?_append_left
      (by simpa using h3),
    List.getElem?_set_self (by simpa using h3), List.getD_eq_getElem?_getD,
    List.getElem?_eq_getElem h3]
  simp [List.getD]

theorem sortChildren_midTree {t : IdTree} {pid : Nat} {item : Item}
    (h3 : pid < t.nodes.length) :
    sortChildren (midTree t pid item) pid = .ok (stepTree t pid item) := by
  unfold sortChildren
  rw [if_pos (by rw [midTree_nodes_length]; exact Nat.lt_succ_of_lt h3)]
  rw [nodeAt_midTree_pid h3]
  unfold stepTree stepLe midTree
  simp only [List.set_append_left, List.set_set, List.length_set, h3]

theorem insertItem_eq_ok {s : BuildState} {item : Item} {par : List String} {pid : Nat}
    (h1 : parentPath item.path = some par)
    (h2 : s.node_id_map (path_key par) = some pid)
    (h3 : pid < s.tree.nodes.length) :
    insertItem s item = .ok
      ⟨stepTree s.tree pid item,
        s.node_id_map.insert (path_key item.path) s.tree.nodes.length⟩ := by
  simp only [insertItem, h1, h2, insertUnder_eq_ok h3, sortChildren_midTree h3]

theorem insertUnder_err {t : IdTree} {pid : Nat} {item : Item}
    (h : ¬ pid < t.nodes.length) :
    insertUnder t pid item = .error .invalidNodeId := by
  unfold insertUnder
  rw [if_neg h]

/-- Inversion: a successful loop iteration must have found the parent in the
index, and produces exactly the `stepTree` state. -/
theorem insertItem_ok_inv {s s' : BuildState} {item : Item}
    (h : insertItem s item = .ok s') :
    ∃ par pid, parentPath item.path = some par ∧
      s.node_id_map (path_key par) = some pid ∧
      pid < s.tree.nodes.length ∧
      s' = ⟨stepTree s.tree pid item,
        s.node_id_map.insert (path_key item.path) s.tree.nodes.length⟩ := by
  cases hp : parentPath item.path with
  | none => rw [insertItem_noParent hp] at h; exact absurd h (by simp)
  | some par =>
    cases hm : s.node_id_map (path_key par) with
    | none => rw [insertItem_orphan hp hm] at h; exact absurd h (by simp)
    | some pid =>
      by_cases hpid : pid < s.tree.nodes.length
      · rw [insertItem_eq_ok hp hm hpid] at h
        exact ⟨par, pid, rfl, hm, hpid, (Except.ok.inj h).symm⟩
      · have : insertItem s item = .error .invalidNodeId := by
          simp only [insertItem, hp, hm, insertUnder_err hpid]
        rw [this] at h
        exact absurd h (by simp)

/-- Full characterization of the arena after one loop iteration. -/
theorem nodeAt_stepTree {t : IdTree} {pid : Nat} {item : Item} (i : Nat)
    (h3 : pid < t.nodes.length) :
    nodeAt (stepTree t pid item) i =
      if i = pid then
        ⟨(nodeAt t pid).data,
          sortBy (stepLe t pid item) ((nodeAt t pid).children ++ [t.nodes.length])⟩
      else if i = t.nodes.length then ⟨item, []⟩
      else nodeAt t i := by
  unfold stepTree nodeAt
  by_cases hip : i = pid
  · subst hip
    rw [if_pos rfl, List.getD_eq_getElem?_getD,
      List.getElem?_append_left (by simpa using h3),
      List.getElem?_set_self (by simpa using h3)]
    rfl
  · rw [if_neg hip]
    by_cases hil : i = t.nodes.length
    · subst hil
      rw [if_pos rfl, List.getD_eq_getElem?_getD,
        List.getElem?_append_right (by simp), List.length_set]
      simp
    · rw [if_neg hil]
      by_cases hlt : i < t.nodes.length
      · rw [List.getD_eq_getElem?_getD,
          List.getElem?_append_left (by simpa using hlt),
          List.getElem?_set_ne (fun h => hip h.symm), List.getD_eq_getElem?_getD]
      · have hgt : t.nodes.length < i := by omega
        rw [List.getD_eq_getElem?_getD, List.getElem?_append_right
            (by simp; omega),
          List.getElem?_eq_none (by simp; omega)]
        rw [List.getD_eq_getElem?_getD t.nodes, List.getElem?_eq_none (by omega)]

theorem pathAt_stepTree_lt {t : IdTree} {pid : Nat} {item : Item} {i : Nat}
    (h3 : pid < t.nodes.length) (hi : i < t.nodes.length) :
    pathAt (stepTree t pid item) i = pathAt t i := by
  unfold pathAt
  rw [nodeAt_stepTree i h3]
  by_cases hip : i = pid
  · subst hip; rw [if_pos rfl]
  · rw [if_neg hip, if_neg (by omega)]

theorem pathAt_stepTree_new {t : IdTree} {pid : Nat} {item : Item}
    (h3 : pid < t.nodes.length) :
    pathAt (stepTree t pid item) t.nodes.length = item.path := by
  unfold pathAt
  rw [nodeAt_stepTree _ h3, if_neg (by omega), if_pos rfl]

theorem childrenOf_stepTree_pid {t : IdTree} {pid : Nat} {item : Item}
    (h3 : pid < t.nodes.length) :
    childrenOf (stepTree t pid item) pid =
      sortBy (stepLe t pid item) ((childrenOf t pid) ++ [t.nodes.length]) := by
  unfold childrenOf
  rw [nodeAt_stepTree pid h3, if_pos rfl]

theorem childrenOf_stepTree_ne {t : IdTree} {pid : Nat} {item : Item} {i : Nat}
    (h3 : pid < t.nodes.length) (hip : i ≠ pid) :
    childrenOf (stepTree t pid item) i = childrenOf t i := by
  unfold childrenOf
  rw [nodeAt_stepTree i h3, if_neg hip]
  by_cases hil : i = t.nodes.length
  · subst hil
    rw [if_pos rfl]
    show ([] : List Nat) = (t.nodes.getD t.nodes.length default).children
    rw [List.getD_eq_getElem?_getD, List.getElem?_eq_none (le_refl _)]
    rfl
  · rw [if_neg hil]

theorem childKey_stepTree {t : IdTree} {pid : Nat} {item : Item} (c : Nat)
    (h3 : pid < t.nodes.length) :
    childKey (stepTree t pid item) c = childKey (midTree t pid item) c := by
  unfold childKey pathAt
  by_cases hlt : c < t.nodes.length
  · rw [nodeAt_midTree_lt h3 hlt, nodeAt_stepTree c h3]
    by_cases hcp : c = pid
    · subst hcp; rw [if_pos rfl]
    · rw [if_neg hcp, if_neg (by omega)]
  · by_cases hcl : c = t.nodes.length
    · subst hcl
      rw [nodeAt_midTree_new h3, nodeAt_stepTree _ h3, if_neg (by omega), if_pos rfl]
    · have h1 : nodeAt (stepTree t pid item) c = default := by
        unfold stepTree nodeAt
        rw [List.getD_eq_getElem?_getD, List.getElem?_eq_none (by simp; omega)]
        rfl
      have h2 : nodeAt (midTree t pid item) c = default := by
        unfold midTree nodeAt
        rw [List.getD_eq_getElem?_getD, List.getElem?_eq_none (by simp; omega)]
        rfl
      rw [h1, h2]

theorem stepTree_length (t : IdTree) (pid : Nat) (item : Item) :
    (stepTree t pid item).nodes.length = t.nodes.length + 1 := by
  unfold stepTree
  simp

theorem stepTree_root (t : IdTree) (pid : Nat) (item : Item) :
    (stepTree t pid item).root = t.root := rfl

theorem mem_childrenOf_stepTree {t : IdTree} {pid : Nat} {item : Item} {i c : Nat}
    (h3 : pid < t.nodes.length) :
    c ∈ childrenOf (stepTree t pid item) i ↔
      (c ∈ childrenOf t i ∨ (i = pid ∧ c = t.nodes.length)) := by
  by_cases hip : i = pid
  · subst hip
    rw [childrenOf_stepTree_pid h3, mem_sortBy, List.mem_append]
    simp
  · rw [childrenOf_stepTree_ne h3 hip]
    simp [hip]

/-! ## The tree-shape invariant maintained by the insertion loop -/

/-- `Desc t n d`: node `d` lies in the subtree rooted at node `n` (the
reflexive-transitive closure of the arena's child relation). -/
inductive Desc (t : IdTree) : Nat → Nat → Prop where
  | refl (i : Nat) : Desc t i i
  | child {i j c : Nat} : Desc t i j → c ∈ childrenOf t j → Desc t i c

/-- Invariant of the builder state through the insertion loop: the root is
node `0`, the index only stores live handles, every child was inserted after
(and is distinct from) its parent, each handle has at most one parent,
every node is reachable from the root, and every node's children are sorted
by canonical path key. -/
structure Wf (s : BuildState) : Prop where
  root_eq : s.tree.root = some 0
  pos : 0 < s.tree.nodes.length
  map_bounded : ∀ k i, s.node_id_map k = some i → i < s.tree.nodes.length
  child_inc : ∀ i c, c ∈ childrenOf s.tree i → i < c ∧ c < s.tree.nodes.length
  unique_parent : ∀ i j c, c ∈ childrenOf s.tree i → c ∈ childrenOf s.tree j → i = j
  children_nodup : ∀ i, (childrenOf s.tree i).Nodup
  sorted_children : ∀ i, (childrenOf s.tree i).Pairwise
    (fun a b => strLe (childKey s.tree a) (childKey s.tree b) = true)
  reach : ∀ i, i < s.tree.nodes.length → Desc s.tree 0 i

theorem Desc.mono_stepTree {t : IdTree} {pid : Nat} {item : Item} {i j : Nat}
    (h3 : pid < t.nodes.length) (h : Desc t i j) :
    Desc (stepTree t pid item) i j := by
  induction h with
  | refl => exact Desc.refl _
  | child _ hc ih =>
    exact Desc.child ih ((mem_childrenOf_stepTree h3).mpr (Or.inl hc))

theorem stepLe_trans (t : IdTree) (pid : Nat) (item : Item) :
    ∀ x y z, stepLe t pid item x y = true → stepLe t pid item y z = true →
      stepLe t pid item x z = true :=
  fun _ _ _ h1 h2 => strLe_trans h1 h2

theorem stepLe_total (t : IdTree) (pid : Nat) (item : Item) :
    ∀ x y, stepLe t pid item x y = true ∨ stepLe t pid item y x = true :=
  fun _ _ => strLe_total _ _

theorem wf_insertItem {s s' : BuildState} {item : Item} (hwf : Wf s)
    (h : insertItem s item = .ok s') : Wf s' := by
  obtain ⟨par, pid, hp, hm, hpid, rfl⟩ := insertItem_ok_inv h
  constructor
  · show (stepTree s.tree pid item).root = some 0
    rw [stepTree_root, hwf.root_eq]
  · show 0 < (stepTree s.tree pid item).nodes.length
    rw [stepTree_length]; omega
  · intro k i hk
    replace hk : (s.node_id_map.insert (path_key item.path) s.tree.nodes.length) k
        = some i := hk
    show i < (stepTree s.tree pid item).nodes.length
    rw [stepTree_length]
    unfold NodeIdMap.insert at hk
    by_cases hq : k = path_key item.path
    · rw [if_pos hq] at hk
      have := Option.some.inj hk
      omega
    · rw [if_neg hq] at hk
      exact Nat.lt_succ_of_lt (hwf.map_bounded k i hk)
  · intro i c hc
    replace hc : c ∈ childrenOf (stepTree s.tree pid item) i := hc
    show i < c ∧ c < (stepTree s.tree pid item).nodes.length
    rw [stepTree_length]
    rcases (mem_childrenOf_stepTree hpid).mp hc with hold | ⟨rfl, rfl⟩
    · have := hwf.child_inc i c hold
      omega
    · omega
  · intro i j c hci hcj
    replace hci : c ∈ childrenOf (stepTree s.tree pid item) i := hci
    replace hcj : c ∈ childrenOf (stepTree s.tree pid item) j := hcj
    rcases (mem_childrenOf_stepTree hpid).mp hci with hi | ⟨rfl, rfl⟩
    · rcases (mem_childrenOf_stepTree hpid).mp hcj with hj | ⟨rfl, rfl⟩
      · exact hwf.unique_parent i j c hi hj
      · exact absurd (hwf.child_inc i _ hi).2 (lt_irrefl _)
    · rcases (mem_childrenOf_stepTree hpid).mp hcj with hj | ⟨rfl, _⟩
      · exact absurd (hwf.child_inc j _ hj).2 (lt_irrefl _)
      · rfl
  · intro i
    show (childrenOf (stepTree s.tree pid item) i).Nodup
    by_cases hip : i = pid
    · subst hip
      rw [childrenOf_stepTree_pid hpid]
      refine ((sortBy_perm _ _).nodup_iff).mpr ?_
      rw [List.nodup_append]
      refine ⟨hwf.children_nodup i, List.nodup_singleton _, ?_⟩
      intro a ha hb
      rw [List.mem_singleton] at hb
      subst hb
      exact absurd (hwf.child_inc i _ ha).2 (lt_irrefl _)
    · rw [childrenOf_stepTree_ne hpid hip]
      exact hwf.children_nodup i
  · intro i
    show (childrenOf (stepTree s.tree pid item) i).Pairwise _
    by_cases hip : i = pid
    · subst hip
      rw [childrenOf_stepTree_pid hpid]
      have hpw := pairwise_sortBy (stepLe s.tree i item) (stepLe_trans s.tree i item)
        (stepLe_total s.tree i item)
        ((childrenOf s.tree i) ++ [s.tree.nodes.length])
      refine hpw.imp ?_
      intro a b hab
      unfold stepLe at hab
      rwa [childKey_stepTree a hpid, childKey_stepTree b hpid]
    · rw [childrenOf_stepTree_ne hpid hip]
      refine (hwf.sorted_children i).imp_of_mem ?_
      intro a b ha hb hab
      have hal := (hwf.child_inc i a ha).2
      have hbl := (hwf.child_inc i b hb).2
      rw [childKey_stepTree a hpid, childKey_stepTree b hpid,
        childKey_midTree_lt hpid hal, childKey_midTree_lt hpid hbl]
      exact hab
  · intro i hi
    replace hi : i < (stepTree s.tree pid item).nodes.length := hi
    show Desc (stepTree s.tree pid item) 0 i
    rw [stepTree_length] at hi
    by_cases hil : i = s.tree.nodes.length
    · subst hil
      refine Desc.child (Desc.mono_stepTree hpid (hwf.reach pid hpid)) ?_
      exact (mem_childrenOf_stepTree hpid).mpr (Or.inr ⟨rfl, rfl⟩)
    · exact Desc.mono_stepTree hpid (hwf.reach i (by omega))

theorem wf_processItems {s s' : BuildState} {l : List Item} (hwf : Wf s)
    (h : processItems s l = .ok s') : Wf s' := by
  induction l generalizing s with
  | nil => exact (Except.ok.inj h) ▸ hwf
  | cons a l ih =>
    have hstep : processItems s (a :: l) =
        match insertItem s a with
        | .error e => .error e
        | .ok s2 => processItems s2 l := rfl
    rw [hstep] at h
    cases he : insertItem s a with
    | error e => rw [he] at h; exact absurd h (by simp)
    | ok s2 =>
      rw [he] at h
      exact ih (wf_insertItem hwf he) h

theorem childrenOf_initState (path : List String) (i : Nat) :
    childrenOf (initState path).tree i = [] := by
  unfold initState childrenOf nodeAt
  cases i with
  | zero => rfl
  | succ n =>
    rw [List.getD_eq_getElem?_getD, List.getElem?_eq_none (by simp)]
    rfl

theorem wf_initState (path : List String) : Wf (initState path) := by
  constructor
  · rfl
  · show 0 < 1
    omega
  · intro k i hk
    unfold initState NodeIdMap.insert NodeIdMap.empty at hk
    by_cases hq : k = path_key path
    · simp only [if_pos hq] at hk
      have := Option.some.inj hk
      show i < 1
      omega
    · simp only [if_neg hq] at hk
      exact absurd hk (by simp)
  · intro i c hc
    rw [childrenOf_initState] at hc
    exact absurd hc (List.not_mem_nil c)
  · intro i j c hci _
    rw [childrenOf_initState] at hci
    exact absurd hci (List.not_mem_nil c)
  · intro i
    rw [childrenOf_initState]
    exact List.nodup_nil
  · intro i
    rw [childrenOf_initState]
    exact List.Pairwise.nil
  · intro i hi
    replace hi : i < 1 := hi
    have hz : i = 0 := by omega
    subst hz
    exact Desc.refl 0

theorem processItems_append (l1 l2 : List Item) (s : BuildState) :
    processItems s (l1 ++ l2) =
      match processItems s l1 with
      | .error e => .error e
      | .ok s2 => processItems s2 l2 := by
  induction l1 generalizing s with
  | nil => rfl
  | cons a l1 ih =>
    have lhs : processItems s (a :: (l1 ++ l2)) =
        match insertItem s a with
        | .error e => .error e
        | .ok s2 => processItems s2 (l1 ++ l2) := rfl
    have rhs : processItems s (a :: l1) =
        match insertItem s a with
        | .error e => .error e
        | .ok s2 => processItems s2 l1 := rfl
    rw [List.cons_append, lhs, rhs]
    cases insertItem s a with
    | error e => rfl
    | ok s2 => exact ih s2

/-! ## Preservation of earlier nodes through the loop -/

theorem insertItem_preserves {s s' : BuildState} {item : Item}
    (h : insertItem s item = .ok s') :
    s'.tree.root = s.tree.root ∧
    s.tree.nodes.length + 1 = s'.tree.nodes.length ∧
    ∀ i, i < s.tree.nodes.length →
      (nodeAt s'.tree i).data = (nodeAt s.tree i).data := by
  obtain ⟨par, pid, hp, hm, hpid, rfl⟩ := insertItem_ok_inv h
  refine ⟨stepTree_root _ _ _, (stepTree_length _ _ _).symm, ?_⟩
  intro i hi
  show (nodeAt (stepTree s.tree pid item) i).data = _
  rw [nodeAt_stepTree i hpid]
  by_cases hipd : i = pid
  · subst hipd
    rw [if_pos rfl]
  · rw [if_neg hipd, if_neg (by omega)]

theorem processItems_preserves {s s' : BuildState} {l : List Item}
    (h : processItems s l = .ok s') :
    s'.tree.root = s.tree.root ∧
    s.tree.nodes.length ≤ s'.tree.nodes.length ∧
    ∀ i, i < s.tree.nodes.length →
      (nodeAt s'.tree i).data = (nodeAt s.tree i).data := by
  induction l generalizing s with
  | nil =>
    cases Except.ok.inj h
    exact ⟨rfl, le_refl _, fun i _ => rfl⟩
  | cons a l ih =>
    have hstep : processItems s (a :: l) =
        match insertItem s a with
        | .error e => .error e
        | .ok s2 => processItems s2 l := rfl
    rw [hstep] at h
    cases he : insertItem s a with
    | error e => rw [he] at h; exact absurd h (by simp)
    | ok s2 =>
      rw [he] at h
      obtain ⟨hr1, hl1, hd1⟩ := insertItem_preserves he
      obtain ⟨hr2, hl2, hd2⟩ := ih h
      refine ⟨hr2.trans hr1, by omega, ?_⟩
      intro i hi
      rw [hd2 i (by omega), hd1 i hi]

/-- Inversion for a successful `buildTree`. -/
theorem buildTree_ok_inv {path : List String} {items : List Item} {t : IdTree}
    (h : buildTree path items = .ok t) :
    ∃ s', processItems (initState path) (sortItems items) = .ok s' ∧ t = s'.tree := by
  unfold buildTree at h
  cases hs : processItems (initState path) (sortItems items) with
  | error e => rw [hs] at h; exact absurd h (by simp)
  | ok s' => rw [hs] at h; exact ⟨s', rfl, (Except.ok.inj h).symm⟩

/-! ## Aborting collection -/

/-- A stream step that the collection loop consumes without aborting: the
walker yielded an entry and its metadata fetch succeeded. -/
def stepOk (st : Except Nat DirEntry) : Prop :=
  ∃ en m, st = .ok en ∧ en.metadata = .ok m

/-- A stream step whose processing aborts the walk with I/O error `e`:
either the walker itself yielded `Err(e)`, or the metadata fetch did. -/
def stepErr (st : Except Nat DirEntry) (e : Nat) : Prop :=
  st = .error e ∨ ∃ en, st = .ok en ∧ en.metadata = .error e

theorem collectItems_error {pre : List (Except Nat DirEntry)}
    {st : Except Nat DirEntry} {rest : List (Except Nat DirEntry)} {e : Nat}
    (hpre : ∀ s ∈ pre, stepOk s) (hst : stepErr st e) :
    collectItems (pre ++ st :: rest) = .error (.walkError e) := by
  induction pre with
  | nil =>
    rcases hst with rfl | ⟨en, rfl, hm⟩
    · rfl
    · show collectItems (.ok en :: rest) = _
      simp only [collectItems, hm]
  | cons p pre ih =>
    obtain ⟨en, m, rfl, hm⟩ := hpre p (List.mem_cons_self _ _)
    have hrest := ih (fun s hs => hpre s (List.mem_cons_of_mem _ hs))
    show collectItems (.ok en :: (pre ++ st :: rest)) = _
    simp only [collectItems, hm, hrest]

theorem walk_dir_error {path : List String} {pre : List (Except Nat DirEntry)}
    {st : Except Nat DirEntry} {rest : List (Except Nat DirEntry)} {e : Nat}
    (ugi : Bool) (hpre : ∀ s ∈ pre, stepOk s) (hst : stepErr st e) :
    walk_dir path (pre ++ st :: rest) ugi = .error (.walkError e) := by
  unfold walk_dir
  rw [collectItems_error hpre hst]

/-! ## Totality of the insertion loop under a complete entry set -/

theorem nodeIdMap_insert_self (m : NodeIdMap) (k : String) (v : Nat) :
    (m.insert k v) k = some v := by
  unfold NodeIdMap.insert
  rw [if_pos rfl]

theorem nodeIdMap_insert_isSome_mono {m : NodeIdMap} {k : String} {v : Nat}
    {q : String} (h : (m q).isSome) : ((m.insert k v) q).isSome := by
  unfold NodeIdMap.insert
  by_cases hq : q = k
  · rw [if_pos hq]; rfl
  · rw [if_neg hq]; exact h

theorem nodeIdMap_insert_isSome_inv {m : NodeIdMap} {k : String} {v : Nat}
    {q : String} (h : ((m.insert k v) q).isSome) : q = k ∨ (m q).isSome := by
  unfold NodeIdMap.insert at h
  by_cases hq : q = k
  · exact Or.inl hq
  · rw [if_neg hq] at h; exact Or.inr h

theorem nodeIdMap_insert_eq_of_key {m : NodeIdMap} {k : String} {v : Nat}
    {q : String} (h : q = k) : (m.insert k v) q = some v := by
  unfold NodeIdMap.insert
  rw [if_pos h]

/-- Main totality lemma: over a depth-sorted worklist in which every item's
parent key is already in the index or is the key of a strictly shallower
item of the worklist, the loop runs to completion; the index's key set grows
exactly by the processed items' keys and stays bounded. -/
theorem processItems_total : ∀ (todo : List Item) (s : BuildState),
    (∀ k i, s.node_id_map k = some i → i < s.tree.nodes.length) →
    todo.Pairwise (fun a b => a.path.length ≤ b.path.length) →
    (∀ a ∈ todo, ∃ par, parentPath a.path = some par ∧
      ((s.node_id_map (path_key par)).isSome ∨
        ∃ a2 ∈ todo, path_key a2.path = path_key par ∧
          a2.path.length < a.path.length)) →
    ∃ s2, processItems s todo = .ok s2 ∧
      (∀ k, (s.node_id_map k).isSome → (s2.node_id_map k).isSome) ∧
      (∀ a ∈ todo, (s2.node_id_map (path_key a.path)).isSome) ∧
      (∀ k, (s2.node_id_map k).isSome → (s.node_id_map k).isSome ∨
        ∃ a ∈ todo, k = path_key a.path) ∧
      (∀ k i, s2.node_id_map k = some i → i < s2.tree.nodes.length) := by
  intro todo
  induction todo with
  | nil =>
    intro s hbnd _ _
    exact ⟨s, rfl, fun _ h => h, fun a ha => absurd ha (List.not_mem_nil a),
      fun k h => Or.inl h, hbnd⟩
  | cons a rest ih =>
    intro s hbnd hsorted hcov
    obtain ⟨par, hpar, hc⟩ := hcov a (List.mem_cons_self _ _)
    have hsome : (s.node_id_map (path_key par)).isSome := by
      rcases hc with h | ⟨a2, ha2, _, hlt⟩
      · exact h
      · rcases List.mem_cons.mp ha2 with rfl | ha2r
        · exact absurd hlt (lt_irrefl _)
        · have := (List.pairwise_cons.mp hsorted).1 a2 ha2r
          omega
    obtain ⟨pid, hpid⟩ := Option.isSome_iff_exists.mp hsome
    have hpidlt : pid < s.tree.nodes.length := hbnd _ _ hpid
    have hok := insertItem_eq_ok hpar hpid hpidlt
    set s1 : BuildState := ⟨stepTree s.tree pid a,
      s.node_id_map.insert (path_key a.path) s.tree.nodes.length⟩ with hs1
    have hbnd1 : ∀ k i, s1.node_id_map k = some i → i < s1.tree.nodes.length := by
      intro k i hk
      replace hk : (s.node_id_map.insert (path_key a.path) s.tree.nodes.length) k
          = some i := hk
      show i < (stepTree s.tree pid a).nodes.length
      rw [stepTree_length]
      unfold NodeIdMap.insert at hk
      by_cases hq : k = path_key a.path
      · rw [if_pos hq] at hk
        have := Option.some.inj hk
        omega
      · rw [if_neg hq] at hk
        exact Nat.lt_succ_of_lt (hbnd k i hk)
    have hcov1 : ∀ b ∈ rest, ∃ parb, parentPath b.path = some parb ∧
        ((s1.node_id_map (path_key parb)).isSome ∨
          ∃ a2 ∈ rest, path_key a2.path = path_key parb ∧
            a2.path.length < b.path.length) := by
      intro b hb
      obtain ⟨parb, hparb, hcb⟩ := hcov b (List.mem_cons_of_mem _ hb)
      refine ⟨parb, hparb, ?_⟩
      rcases hcb with h | ⟨a2, ha2, hkey, hlt⟩
      · exact Or.inl (nodeIdMap_insert_isSome_mono h)
      · rcases List.mem_cons.mp ha2 with heq | ha2r
        · refine Or.inl ?_
          have hmap : s1.node_id_map (path_key parb) = some s.tree.nodes.length := by
            show (s.node_id_map.insert (path_key a.path) s.tree.nodes.length)
              (path_key parb) = _
            refine nodeIdMap_insert_eq_of_key ?_
            rw [← hkey, heq]
          rw [hmap]
          rfl
        · exact Or.inr ⟨a2, ha2r, hkey, hlt⟩
    obtain ⟨s2, hrun, hmono, hkeys, hdom, hbnd2⟩ :=
      ih s1 hbnd1 (List.pairwise_cons.mp hsorted).2 hcov1
    refine ⟨s2, ?_, ?_, ?_, ?_, hbnd2⟩
    · show (match insertItem s a with
        | Except.error e => Except.error e
        | Except.ok s3 => processItems s3 rest) = Except.ok s2
      rw [hok]
      exact hrun
    · intro k hk
      exact hmono k (nodeIdMap_insert_isSome_mono hk)
    · intro b hb
      rcases List.mem_cons.mp hb with heq | hbr
      · refine hmono _ ?_
        have hmap : s1.node_id_map (path_key b.path) = some s.tree.nodes.length := by
          show (s.node_id_map.insert (path_key a.path) s.tree.nodes.length)
            (path_key b.path) = _
          exact nodeIdMap_insert_eq_of_key (by rw [heq])
        rw [hmap]
        rfl
      · exact hkeys b hbr
    · intro k hk
      rcases hdom k hk with h1 | ⟨b, hbr, hkb⟩
      · replace h1 : ((s.node_id_map.insert (path_key a.path) s.tree.nodes.length)
            k).isSome := h1
        rcases nodeIdMap_insert_isSome_inv h1 with heq | h2
        · exact Or.inr ⟨a, List.mem_cons_self _ _, heq⟩
        · exact Or.inl h2
      · exact Or.inr ⟨b, List.mem_cons_of_mem _ hbr, hkb⟩

theorem sortItems_pairwise (items : List Item) :
    (sortItems items).Pairwise (fun a b => a.path.length ≤ b.path.length) := by
  have := pairwise_sortBy (fun a b : Item => decide (a.path.length ≤ b.path.length))
    (fun x y z h1 h2 => by
      rw [decide_eq_true_eq] at h1 h2 ⊢
      omega)
    (fun x y => by
      rcases Nat.le_total x.path.length y.path.length with h | h
      · exact Or.inl (by rw [decide_eq_true_eq]; exact h)
      · exact Or.inr (by rw [decide_eq_true_eq]; exact h))
    items
  exact this.imp (fun h => by rwa [decide_eq_true_eq] at h)

theorem processItems_ok_split {s : BuildState} {l1 l2 : List Item} {s2 : BuildState}
    (h : processItems s (l1 ++ l2) = .ok s2) :
    ∃ s1, processItems s l1 = .ok s1 ∧ processItems s1 l2 = .ok s2 := by
  rw [processItems_append] at h
  cases h1 : processItems s l1 with
  | error e => rw [h1] at h; exact absurd h (by simp)
  | ok s1 => rw [h1] at h; exact ⟨s1, rfl, h⟩

theorem processItems_cons_ok {s : BuildState} {a : Item} {l : List Item}
    {s2 : BuildState} (h : processItems s (a :: l) = .ok s2) :
    ∃ s1, insertItem s a = .ok s1 ∧ processItems s1 l = .ok s2 := by
  have hstep : processItems s (a :: l) =
      match insertItem s a with
      | .error e => .error e
      | .ok s1 => processItems s1 l := rfl
  rw [hstep] at h
  cases h1 : insertItem s a with
  | error e => rw [h1] at h; exact absurd h (by simp)
  | ok s1 => rw [h1] at h; exact ⟨s1, rfl, h⟩

/-! ## Pre-order traversal facts -/

/-- The pre-order listing of the subtree rooted at node `i`, with the fuel
`preorderIds` uses. -/
def subtree (t : IdTree) (i : Nat) : List Nat :=
  preorderAux t t.nodes.length i

/-- `u` occurs as one contiguous segment of `l`. -/
def segWithin (u l : List Nat) : Prop := ∃ p q, l = p ++ u ++ q

/-- `a` is visited before `b` in the listing `l`. -/
def before (a b : Nat) (l : List Nat) : Prop :=
  ∃ (p q : Nat), p < q ∧ l[p]? = some a ∧ l[q]? = some b

/-- Shorthand for the child-bound part of the invariant. -/
def childBounds (t : IdTree) : Prop :=
  ∀ i c, c ∈ childrenOf t i → i < c ∧ c < t.nodes.length

theorem childrenOf_of_le {t : IdTree} {i : Nat} (h : t.nodes.length ≤ i) :
    childrenOf t i = [] := by
  unfold childrenOf nodeAt
  rw [List.getD_eq_getElem?_getD, List.getElem?_eq_none (by simpa using h)]
  rfl

theorem preorderAux_congr_fuel {t : IdTree} (hinc : childBounds t) :
    ∀ (f1 f2 i : Nat), i < t.nodes.length →
      t.nodes.length - i ≤ f1 → t.nodes.length - i ≤ f2 →
      preorderAux t f1 i = preorderAux t f2 i := by
  intro f1
  induction f1 with
  | zero => intro f2 i hi h1 _; omega
  | succ f1 ih =>
    intro f2 i hi h1 h2
    cases f2 with
    | zero => omega
    | succ g =>
      show i :: _ = i :: _
      congr 1
      refine List.flatMap_congr ?_
      intro c hc
      obtain ⟨hic, hcl⟩ := hinc i c hc
      exact ih g c hcl (by omega) (by omega)

theorem mem_preorderAux_ge {t : IdTree} (hinc : childBounds t) :
    ∀ (f i j : Nat), j ∈ preorderAux t f i → i ≤ j := by
  intro f
  induction f with
  | zero => intro i j h; exact absurd h (List.not_mem_nil j)
  | succ f ih =>
    intro i j h
    rcases List.mem_cons.mp h with rfl | h
    · exact le_refl j
    · obtain ⟨c, hc, hj⟩ := List.mem_flatMap.mp h
      have h1 := (hinc i c hc).1
      have h2 := ih c j hj
      omega

theorem mem_preorderAux_lt {t : IdTree} (hinc : childBounds t) :
    ∀ (f i j : Nat), i < t.nodes.length → j ∈ preorderAux t f i →
      j < t.nodes.length := by
  intro f
  induction f with
  | zero => intro i j _ h; exact absurd h (List.not_mem_nil j)
  | succ f ih =>
    intro i j hi h
    rcases List.mem_cons.mp h with rfl | h
    · exact hi
    · obtain ⟨c, hc, hj⟩ := List.mem_flatMap.mp h
      exact ih c j (hinc i c hc).2 hj

theorem subtree_head {t : IdTree} {i : Nat} (hi : i < t.nodes.length) :
    ∃ rest, subtree t i = i :: rest := by
  obtain ⟨f, hf⟩ : ∃ f, t.nodes.length = f + 1 := ⟨t.nodes.length - 1, by omega⟩
  refine ⟨(childrenOf t i).flatMap (fun c => preorderAux t f c), ?_⟩
  unfold subtree
  rw [hf]
  rfl

theorem subtree_eq {t : IdTree} (hinc : childBounds t) {i : Nat}
    (hi : i < t.nodes.length) :
    subtree t i = i :: (childrenOf t i).flatMap (fun c => subtree t c) := by
  obtain ⟨f, hf⟩ : ∃ f, t.nodes.length = f + 1 := ⟨t.nodes.length - 1, by omega⟩
  have h1 : subtree t i =
      i :: (childrenOf t i).flatMap (fun c => preorderAux t f c) := by
    unfold subtree
    rw [hf]
    rfl
  rw [h1]
  congr 1
  refine List.flatMap_congr ?_
  intro c hc
  obtain ⟨hic, hcl⟩ := hinc i c hc
  exact preorderAux_congr_fuel hinc f t.nodes.length c hcl (by omega) (by omega)

theorem mem_subtree_self {t : IdTree} {i : Nat} (hi : i < t.nodes.length) :
    i ∈ subtree t i := by
  obtain ⟨rest, hr⟩ := subtree_head hi
  rw [hr]
  exact List.mem_cons_self _ _

theorem segWithin_refl (l : List Nat) : segWithin l l :=
  ⟨[], [], by simp⟩

theorem segWithin_trans {u v w : List Nat} (h1 : segWithin u v)
    (h2 : segWithin v w) : segWithin u w := by
  obtain ⟨p, q, rfl⟩ := h1
  obtain ⟨p2, q2, rfl⟩ := h2
  exact ⟨p2 ++ p, q ++ q2, by simp [List.append_assoc]⟩

theorem segWithin_cons {u l : List Nat} (x : Nat) (h : segWithin u l) :
    segWithin u (x :: l) := by
  obtain ⟨p, q, rfl⟩ := h
  exact ⟨x :: p, q, rfl⟩

theorem segWithin_append_left {u l : List Nat} (v : List Nat)
    (h : segWithin u l) : segWithin u (v ++ l) := by
  obtain ⟨p, q, rfl⟩ := h
  exact ⟨v ++ p, q, by simp [List.append_assoc]⟩

theorem segWithin_append_right {u l : List Nat} (v : List Nat)
    (h : segWithin u l) : segWithin u (l ++ v) := by
  obtain ⟨p, q, rfl⟩ := h
  exact ⟨p, q ++ v, by simp [List.append_assoc]⟩

theorem segWithin_flatMap {cs : List Nat} {c : Nat} (hc : c ∈ cs)
    (g : Nat → List Nat) : segWithin (g c) (cs.flatMap g) := by
  induction cs with
  | nil => exact absurd hc (List.not_mem_nil c)
  | cons x cs ih =>
    rcases List.mem_cons.mp hc with rfl | hc2
    · rw [List.flatMap_cons]
      exact segWithin_append_right _ (segWithin_refl _)
    · rw [List.flatMap_cons]
      exact segWithin_append_left _ (ih hc2)

theorem mem_of_segWithin {u l : List Nat} {a : Nat} (ha : a ∈ u)
    (h : segWithin u l) : a ∈ l := by
  obtain ⟨p, q, rfl⟩ := h
  exact List.mem_append_left q (List.mem_append_right p ha)

theorem before_head {a b : Nat} {rest : List Nat} (hb : b ∈ rest) :
    before a b (a :: rest) := by
  obtain ⟨q, hq⟩ := List.getElem?_of_mem hb
  exact ⟨0, q + 1, by omega, List.getElem?_cons_zero,
    by rwa [List.getElem?_cons_succ]⟩

theorem before_segWithin {a b : Nat} {u l : List Nat} (h : before a b u)
    (hw : segWithin u l) : before a b l := by
  obtain ⟨p, q, hpq, hp, hq⟩ := h
  obtain ⟨v, w, rfl⟩ := hw
  have hpu : p < u.length := by
    rcases List.getElem?_eq_some_iff.mp hp with ⟨h1, _⟩
    exact h1
  have hqu : q < u.length := by
    rcases List.getElem?_eq_some_iff.mp hq with ⟨h1, _⟩
    exact h1
  refine ⟨v.length + p, v.length + q, by omega, ?_, ?_⟩
  · rw [List.append_assoc, List.getElem?_append_right (by omega),
      Nat.add_sub_cancel_left, List.getElem?_append_left hpu]
    exact hp
  · rw [List.append_assoc, List.getElem?_append_right (by omega),
      Nat.add_sub_cancel_left, List.getElem?_append_left hqu]
    exact hq

theorem before_append_mem {a b : Nat} {l1 l2 : List Nat} (ha : a ∈ l1)
    (hb : b ∈ l2) : before a b (l1 ++ l2) := by
  obtain ⟨p, hp⟩ := List.getElem?_of_mem ha
  obtain ⟨q, hq⟩ := List.getElem?_of_mem hb
  have hpu : p < l1.length := by
    rcases List.getElem?_eq_some_iff.mp hp with ⟨h1, _⟩
    exact h1
  refine ⟨p, l1.length + q, by omega, ?_, ?_⟩
  · rw [List.getElem?_append_left hpu]
    exact hp
  · rw [List.getElem?_append_right (by omega), Nat.add_sub_cancel_left]
    exact hq

theorem desc_lt_len {t : IdTree} (hinc : childBounds t) {i j : Nat}
    (h : Desc t i j) (hi : i < t.nodes.length) : j < t.nodes.length := by
  induction h with
  | refl => exact hi
  | child _ hc _ => exact (hinc _ _ hc).2

theorem desc_of_out {t : IdTree} {i j : Nat} (h : Desc t i j)
    (hi : t.nodes.length ≤ i) : j = i := by
  induction h with
  | refl => rfl
  | child _ hc ih =>
    rw [ih, childrenOf_of_le hi] at hc
    exact absurd hc (List.not_mem_nil _)

theorem desc_segWithin {t : IdTree} (hinc : childBounds t) {i j : Nat}
    (h : Desc t i j) (hi : i < t.nodes.length) :
    segWithin (subtree t j) (subtree t i) := by
  induction h with
  | refl => exact segWithin_refl _
  | child hd hc ih =>
    rename_i j c
    have hj : j < t.nodes.length := desc_lt_len hinc hd hi
    refine segWithin_trans ?_ ih
    rw [subtree_eq hinc hj]
    exact segWithin_cons _ (segWithin_flatMap hc _)

theorem desc_before {t : IdTree} (hinc : childBounds t) {n d : Nat}
    (hn : n < t.nodes.length) (h : Desc t n d) (hne : n ≠ d) :
    before n d (subtree t n) := by
  have hw := desc_segWithin hinc h hn
  have hd : d < t.nodes.length := desc_lt_len hinc h hn
  have hmem : d ∈ subtree t n := mem_of_segWithin (mem_subtree_self hd) hw
  obtain ⟨rest, hr⟩ := subtree_head hn
  rw [hr] at hmem ⊢
  rcases List.mem_cons.mp hmem with heq | hmem2
  · exact absurd heq.symm hne
  · exact before_head hmem2

theorem before_flatMap {t : IdTree} :
    ∀ (cs : List Nat) (p q c1 c2 : Nat),
      (∀ c ∈ cs, c < t.nodes.length) →
      p < q → cs[p]? = some c1 → cs[q]? = some c2 →
      before c1 c2 (cs.flatMap (fun c => subtree t c)) := by
  intro cs
  induction cs with
  | nil => intro p q c1 c2 _ _ h1 _; simp at h1
  | cons c cs ih =>
    intro p q c1 c2 hb hpq h1 h2
    rw [List.flatMap_cons]
    cases p with
    | zero =>
      have hc1 : c = c1 := Option.some.inj (by simpa using h1)
      cases q with
      | zero => omega
      | succ q2 =>
        rw [List.getElem?_cons_succ] at h2
        have hc2mem : c2 ∈ cs := by
          rcases List.getElem?_eq_some_iff.mp h2 with ⟨hlen, heq⟩
          rw [← heq]
          exact List.getElem_mem _
        subst hc1
        refine before_append_mem ?_ ?_
        · exact mem_subtree_self (hb c (List.mem_cons_self _ _))
        · exact List.mem_flatMap.mpr ⟨c2, hc2mem,
            mem_subtree_self (hb c2 (List.mem_cons_of_mem _ hc2mem))⟩
    | succ p2 =>
      cases q with
      | zero => omega
      | succ q2 =>
        rw [List.getElem?_cons_succ] at h1 h2
        refine before_segWithin
          (ih p2 q2 c1 c2 (fun x hx => hb x (List.mem_cons_of_mem _ hx))
            (by omega) h1 h2) ?_
        exact segWithin_append_left _ (segWithin_refl _)

theorem parentPath_eq_some {p : List String} (h : p ≠ []) :
    parentPath p = some p.dropLast := by
  cases p with
  | nil => exact absurd rfl h
  | cons s rest => rfl

/-- A complete entry list under `root`: every entry lies strictly below the
root, and every proper initial segment of an entry's path that is at least
as long as the root is the root itself or the path of some entry of the
list. -/
def completeUnder (root : List String) (items : List Item) : Prop :=
  ∀ e ∈ items, (root.length < e.path.length ∧ e.path.take root.length = root) ∧
    ∀ n, n < e.path.length → root.length ≤ n →
      e.path.take n = root ∨ ∃ e2 ∈ items, e2.path = e.path.take n

instance (root : List String) (items : List Item) :
    Decidable (completeUnder root items) := by
  unfold completeUnder
  infer_instance

/-! ## Canonical (order-free) characterization of a successful build -/

/-- Comparison of items by canonical path key, the order in which every
parent's children end up. -/
def itemLe (a b : Item) : Bool := strLe (path_key a.path) (path_key b.path)

/-- The children a node with path `p` ends up with: the items whose
filesystem parent is `p`, sorted by canonical key. -/
def itemChildren (items : List Item) (p : List String) : List Item :=
  sortBy itemLe (items.filter (fun e => decide (parentPath e.path = some p)))

/-- The canonical pre-order path listing, computed set-wise from the item
list, independent of its order. -/
def canonPreAux (items : List Item) : Nat → List String → List (List String)
  | 0, _ => []
  | fuel + 1, p =>
    p :: (itemChildren items p).flatMap (fun e => canonPreAux items fuel e.path)

/-- An item's parent is already materialized: it is the root or the path of
another item of the list. -/
def parentPresent (root : List String) (items : List Item) (e : Item) : Prop :=
  e.path.dropLast = root ∨ ∃ e2 ∈ items, e2.path = e.path.dropLast

instance (root : List String) (items : List Item) (e : Item) :
    Decidable (parentPresent root items e) := by
  unfold parentPresent
  infer_instance

theorem itemLe_trans : ∀ x y z : Item, itemLe x y = true → itemLe y z = true →
    itemLe x z = true :=
  fun _ _ _ h1 h2 => strLe_trans h1 h2

theorem itemLe_total : ∀ x y : Item, itemLe x y = true ∨ itemLe y x = true :=
  fun _ _ => strLe_total _ _

theorem map_insertSorted {α β : Type} {f : α → β} {leA : α → α → Bool}
    {leB : β → β → Bool} (a : α) (u : List α)
    (hcomp : ∀ y ∈ u, leA a y = leB (f a) (f y)) :
    (insertSorted leA a u).map f = insertSorted leB (f a) (u.map f) := by
  induction u with
  | nil => rfl
  | cons b u ih =>
    have hab := hcomp b (List.mem_cons_self _ _)
    by_cases h : leA a b
    · simp only [insertSorted, if_pos h, List.map_cons]
      rw [if_pos (hab ▸ h)]
    · simp only [insertSorted, if_neg h, List.map_cons]
      rw [if_neg (fun hc => h (by rw [hab]; exact hc))]
      rw [ih (fun y hy => hcomp y (List.mem_cons_of_mem _ hy))]

theorem map_sortBy {α β : Type} (f : α → β) (leA : α → α → Bool)
    (leB : β → β → Bool) (l : List α)
    (hcomp : ∀ x ∈ l, ∀ y ∈ l, leA x y = leB (f x) (f y)) :
    (sortBy leA l).map f = sortBy leB (l.map f) := by
  induction l with
  | nil => rfl
  | cons a l ih =>
    show (insertSorted leA a (sortBy leA l)).map f = _
    rw [map_insertSorted a (sortBy leA l) (fun y hy =>
      hcomp a (List.mem_cons_self _ _) y
        (List.mem_cons_of_mem _ (mem_sortBy.mp hy)))]
    rw [ih (fun x hx y hy =>
      hcomp x (List.mem_cons_of_mem _ hx) y (List.mem_cons_of_mem _ hy))]
    rfl

/-- Two key-sorted permutations of a path-distinct valid item list are
equal. -/
theorem sorted_perm_eq {l1 l2 : List Item} (hperm : l1.Perm l2)
    (h1 : l1.Pairwise (fun a b => itemLe a b = true))
    (h2 : l2.Pairwise (fun a b => itemLe a b = true))
    (hval : ∀ e ∈ l1, validSegs e.path)
    (hinj : ∀ x ∈ l1, ∀ y ∈ l1, x.path = y.path → x = y) :
    l1 = l2 := by
  refine List.Perm.eq_of_sorted ?_ h1 h2 hperm
  intro a b ha hb hab hba
  have hb1 : b ∈ l1 := hperm.mem_iff.mpr hb
  have hkey : path_key a.path = path_key b.path := strLe_antisymm hab hba
  have hpath : a.path = b.path :=
    path_key_inj _ _ (hval a ha) (hval b hb1) hkey
  exact hinj a ha b hb1 hpath

theorem pairwise_itemChildren (items : List Item) (p : List String) :
    (itemChildren items p).Pairwise (fun a b => itemLe a b = true) :=
  pairwise_sortBy itemLe itemLe_trans itemLe_total _

theorem itemChildren_perm {l1 l2 : List Item} (hperm : l1.Perm l2)
    (hval : ∀ e ∈ l1, validSegs e.path)
    (hinj : ∀ x ∈ l1, ∀ y ∈ l1, x.path = y.path → x = y) (p : List String) :
    itemChildren l1 p = itemChildren l2 p := by
  have hfperm := hperm.filter (fun e => decide (parentPath e.path = some p))
  refine sorted_perm_eq ?_ (pairwise_itemChildren l1 p) (pairwise_itemChildren l2 p)
    ?_ ?_
  · exact (sortBy_perm _ _).trans (hfperm.trans (sortBy_perm _ _).symm)
  · intro e he
    exact hval e (List.mem_of_mem_filter (mem_sortBy.mp he))
  · intro x hx y hy
    exact hinj x (List.mem_of_mem_filter (mem_sortBy.mp hx))
      y (List.mem_of_mem_filter (mem_sortBy.mp hy))

theorem canonPreAux_perm {l1 l2 : List Item} (hperm : l1.Perm l2)
    (hval : ∀ e ∈ l1, validSegs e.path)
    (hinj : ∀ x ∈ l1, ∀ y ∈ l1, x.path = y.path → x = y) :
    ∀ (f : Nat) (p : List String), canonPreAux l1 f p = canonPreAux l2 f p := by
  intro f
  induction f with
  | zero => intro p; rfl
  | succ f ih =>
    intro p
    show p :: _ = p :: _
    rw [itemChildren_perm hperm hval hinj p]
    congr 1
    exact List.flatMap_congr (fun e _ => ih e.path)

/-- Relation between the loop state after processing the items `done` and
the canonical description: the arena is the root node followed by `done` in
insertion order, every node's children are exactly the canonical sorted
children drawn from `done`, and the index maps exactly the keys of the live
nodes to their handles. -/
structure SimRel (root : List String) (done : List Item) (s : BuildState) : Prop where
  len_eq : s.tree.nodes.length = done.length + 1
  data0 : (nodeAt s.tree 0).data = ⟨root, false⟩
  data_at : ∀ j, j < done.length →
    (nodeAt s.tree (j + 1)).data = done.getD j ⟨[], false⟩
  children_at : ∀ i, i < s.tree.nodes.length →
    (childrenOf s.tree i).map (fun c => (nodeAt s.tree c).data) =
      itemChildren done (pathAt s.tree i)
  map_keys : ∀ i, i < s.tree.nodes.length →
    s.node_id_map (path_key (pathAt s.tree i)) = some i
  map_none : ∀ k, (∀ i, i < s.tree.nodes.length → k ≠ path_key (pathAt s.tree i)) →
    s.node_id_map k = none

theorem simRel_init (root : List String) : SimRel root [] (initState root) := by
  constructor
  · rfl
  · rfl
  · intro j hj
    simp at hj
  · intro i hi
    replace hi : i < 1 := hi
    have hz : i = 0 := by omega
    subst hz
    rw [childrenOf_initState]
    rfl
  · intro i hi
    replace hi : i < 1 := hi
    have hz : i = 0 := by omega
    subst hz
    show (if path_key root = path_key root then some 0 else none) = some 0
    rw [if_pos rfl]
  · intro k hk
    have hkr := hk 0 (show 0 < (initState root).tree.nodes.length from Nat.zero_lt_one)
    exact if_neg hkr

theorem nodeAt_stepTree_data_lt {t : IdTree} {pid : Nat} {item : Item} {i : Nat}
    (h3 : pid < t.nodes.length) (hi : i < t.nodes.length) :
    (nodeAt (stepTree t pid item) i).data = (nodeAt t i).data := by
  rw [nodeAt_stepTree i h3]
  by_cases hip : i = pid
  · subst hip
    rw [if_pos rfl]
  · rw [if_neg hip, if_neg (by omega)]

theorem nodeAt_stepTree_data_new {t : IdTree} {pid : Nat} {item : Item}
    (h3 : pid < t.nodes.length) :
    (nodeAt (stepTree t pid item) t.nodes.length).data = item := by
  rw [nodeAt_stepTree _ h3, if_neg (by omega), if_pos rfl]

theorem getD_mem_of_lt {α : Type} {l : List α} {j : Nat} (hj : j < l.length)
    (d : α) : l.getD j d ∈ l := by
  rw [List.getD_eq_getElem?_getD, List.getElem?_eq_getElem hj]
  simp only [Option.getD_some]
  exact List.getElem_mem hj

theorem simRel_path0 {root : List String} {done : List Item} {s : BuildState}
    (h : SimRel root done s) : pathAt s.tree 0 = root := by
  show (nodeAt s.tree 0).data.path = root
  rw [h.data0]

theorem simRel_pathAt_succ {root : List String} {done : List Item}
    {s : BuildState} (h : SimRel root done s) {j : Nat} (hj : j < done.length) :
    pathAt s.tree (j + 1) = (done.getD j ⟨[], false⟩).path := by
  show (nodeAt s.tree (j + 1)).data.path = _
  rw [h.data_at j hj]

theorem simRel_pathAt_getD {root : List String} {done : List Item}
    {s : BuildState} (h : SimRel root done s) {i : Nat}
    (hi : i < s.tree.nodes.length) :
    pathAt s.tree i = (root :: done.map Item.path).getD i [] := by
  cases i with
  | zero => rw [simRel_path0 h]; rfl
  | succ j =>
    have hj : j < done.length := by
      have := h.len_eq
      omega
    rw [simRel_pathAt_succ h hj]
    show _ = (done.map Item.path).getD j []
    rw [List.getD_eq_getElem?_getD done, List.getElem?_eq_getElem hj,
      List.getD_eq_getElem?_getD (done.map Item.path),
      List.getElem?_eq_getElem (by simpa using hj), List.getElem_map]
    rfl

theorem simRel_pathAt_mem {root : List String} {done : List Item}
    {s : BuildState} (h : SimRel root done s) {i : Nat}
    (hi : i < s.tree.nodes.length) :
    pathAt s.tree i = root ∨ pathAt s.tree i ∈ done.map Item.path := by
  cases i with
  | zero => exact Or.inl (simRel_path0 h)
  | succ j =>
    have hj : j < done.length := by
      have := h.len_eq
      omega
    refine Or.inr ?_
    rw [simRel_pathAt_succ h hj]
    exact List.mem_map.mpr ⟨done.getD j ⟨[], false⟩, getD_mem_of_lt hj _, rfl⟩

theorem simRel_pathAt_valid {root : List String} {done : List Item}
    {s : BuildState} (h : SimRel root done s) (hvalr : validSegs root)
    (hval : ∀ e ∈ done, validSegs e.path) {i : Nat}
    (hi : i < s.tree.nodes.length) : validSegs (pathAt s.tree i) := by
  rcases simRel_pathAt_mem h hi with heq | hmem
  · rw [heq]; exact hvalr
  · obtain ⟨e, he, hep⟩ := List.mem_map.mp hmem
    rw [← hep]
    exact hval e he

theorem simRel_pathAt_inj {root : List String} {done : List Item}
    {s : BuildState} (h : SimRel root done s)
    (hnd : (root :: done.map Item.path).Nodup) :
    ∀ i j, i < s.tree.nodes.length → j < s.tree.nodes.length →
      pathAt s.tree i = pathAt s.tree j → i = j := by
  intro i j hi hj heq
  rw [simRel_pathAt_getD h hi, simRel_pathAt_getD h hj] at heq
  have hlen : (root :: done.map Item.path).length = s.tree.nodes.length := by
    simp [h.len_eq]
  have hi2 : i < (root :: done.map Item.path).length := by omega
  have hj2 : j < (root :: done.map Item.path).length := by omega
  rw [List.getD_eq_getElem?_getD, List.getElem?_eq_getElem hi2,
    List.getD_eq_getElem?_getD, List.getElem?_eq_getElem hj2] at heq
  exact (List.Nodup.getElem_inj_iff hnd).mp heq

/-- Appending the new item to its parent's already-canonical children and
re-sorting yields the canonical children drawn from `done ++ [a]`. -/
theorem itemChildren_snoc {done : List Item} {a : Item} {p : List String}
    (hpa : parentPath a.path = some p)
    (hval : ∀ e ∈ done, validSegs e.path) (hvala : validSegs a.path)
    (hinj : ∀ x ∈ done ++ [a], ∀ y ∈ done ++ [a], x.path = y.path → x = y) :
    sortBy itemLe (itemChildren done p ++ [a]) = itemChildren (done ++ [a]) p := by
  have hfa : (done ++ [a]).filter (fun e => decide (parentPath e.path = some p)) =
      done.filter (fun e => decide (parentPath e.path = some p)) ++ [a] := by
    rw [List.filter_append]
    congr 1
    simp [List.filter, hpa]
  have hmem1 : ∀ x ∈ sortBy itemLe (itemChildren done p ++ [a]), x ∈ done ++ [a] := by
    intro x hx
    rcases List.mem_append.mp (mem_sortBy.mp hx) with h1 | h2
    · exact List.mem_append_left _ (List.mem_of_mem_filter (mem_sortBy.mp h1))
    · exact List.mem_append_right _ h2
  refine sorted_perm_eq ?_ (pairwise_sortBy itemLe itemLe_trans itemLe_total _)
    (pairwise_itemChildren _ _) ?_ ?_
  · refine (sortBy_perm _ _).trans (((sortBy_perm _ _).append_right [a]).trans ?_)
    rw [← hfa]
    exact (sortBy_perm itemLe _).symm
  · intro e he
    rcases List.mem_append.mp (hmem1 e he) with h1 | h2
    · exact hval e h1
    · rw [List.mem_singleton] at h2
      rw [h2]
      exact hvala
  · intro x hx y hy
    exact hinj x (hmem1 x hx) y (hmem1 y hy)

/-- One successful loop iteration preserves the simulation relation. -/
theorem simRel_step {root : List String} {done : List Item} {a : Item}
    {s : BuildState}
    (hvalr : validSegs root)
    (hval : ∀ e ∈ done, validSegs e.path) (hvala : validSegs a.path)
    (hnd : (root :: (done ++ [a]).map Item.path).Nodup)
    (hlen : ∀ e ∈ done, e.path.length ≤ a.path.length)
    (hwf : Wf s) (hsim : SimRel root done s)
    (hne : a.path ≠ [])
    (hpar : a.path.dropLast = root ∨ ∃ e ∈ done, e.path = a.path.dropLast) :
    ∃ s2, insertItem s a = .ok s2 ∧ SimRel root (done ++ [a]) s2 := by
  have hparent : parentPath a.path = some a.path.dropLast := parentPath_eq_some hne
  obtain ⟨pid, hpidlt, hpidpath⟩ : ∃ pid, pid < s.tree.nodes.length ∧
      pathAt s.tree pid = a.path.dropLast := by
    rcases hpar with hroot | ⟨e, he, hep⟩
    · exact ⟨0, hwf.pos, (simRel_path0 hsim).trans hroot.symm⟩
    · obtain ⟨j, hj, hje⟩ := List.mem_iff_getElem.mp he
      refine ⟨j + 1, by rw [hsim.len_eq]; omega, ?_⟩
      rw [simRel_pathAt_succ hsim hj, List.getD_eq_getElem?_getD,
        List.getElem?_eq_getElem hj]
      show done[j].path = _
      rw [hje, hep]
  have hlook : s.node_id_map (path_key a.path.dropLast) = some pid := by
    have hmk := hsim.map_keys pid hpidlt
    rwa [hpidpath] at hmk
  have hok := insertItem_eq_ok hparent hlook hpidlt
  refine ⟨_, hok, ?_⟩
  have hndTail : ((done ++ [a]).map Item.path).Nodup := (List.nodup_cons.mp hnd).2
  have hndDone : (root :: done.map Item.path).Nodup := by
    refine List.Nodup.sublist ?_ hnd
    refine List.Sublist.cons₂ root ?_
    rw [List.map_append]
    exact List.sublist_append_left _ _
  have hafresh_root : root ≠ a.path := by
    have h1 := (List.nodup_cons.mp hnd).1
    intro h
    refine h1 ?_
    rw [List.map_append, h]
    exact List.mem_append_right _ (by simp)
  have hafresh_done : a.path ∉ done.map Item.path := by
    have h2 := hndTail
    rw [List.map_append, List.nodup_append] at h2
    intro h
    exact h2.2.2 h (by simp)
  have hinj2 : ∀ x ∈ done ++ [a], ∀ y ∈ done ++ [a], x.path = y.path → x = y := by
    intro x hx y hy hxy
    exact List.inj_on_of_nodup_map hndTail hx hy hxy
  constructor
  · show (stepTree s.tree pid a).nodes.length = (done ++ [a]).length + 1
    rw [stepTree_length, hsim.len_eq]
    simp
  · show (nodeAt (stepTree s.tree pid a) 0).data = _
    rw [nodeAt_stepTree_data_lt hpidlt hwf.pos, hsim.data0]
  · intro j hj
    show (nodeAt (stepTree s.tree pid a) (j + 1)).data = (done ++ [a]).getD j _
    by_cases hjd : j < done.length
    · rw [nodeAt_stepTree_data_lt hpidlt (by rw [hsim.len_eq]; omega),
        hsim.data_at j hjd, List.getD_append done [a] _ j hjd]
    · have hj2 : j = done.length := by
        simp only [List.length_append, List.length_singleton] at hj
        omega
      subst hj2
      have hjl : done.length + 1 = s.tree.nodes.length := (hsim.len_eq).symm
      rw [hjl, nodeAt_stepTree_data_new hpidlt]
      rw [List.getD_eq_getElem?_getD, List.getElem?_append_right (le_refl _)]
      simp
  · intro i hi
    replace hi : i < (stepTree s.tree pid a).nodes.length := hi
    rw [stepTree_length] at hi
    show (childrenOf (stepTree s.tree pid a) i).map _ =
      itemChildren (done ++ [a]) (pathAt (stepTree s.tree pid a) i)
    by_cases hip : i = pid
    · subst hip
      rw [childrenOf_stepTree_pid hpidlt, pathAt_stepTree_lt hpidlt hpidlt]
      have hkeyc : ∀ x ∈ childrenOf s.tree i ++ [s.tree.nodes.length],
          childKey (midTree s.tree i a) x =
            path_key ((nodeAt (stepTree s.tree i a) x).data).path := by
        intro x hx
        rcases List.mem_append.mp hx with hxc | hxl
        · have hxlt : x < s.tree.nodes.length := (hwf.child_inc i x hxc).2
          rw [childKey_midTree_lt hpidlt hxlt, nodeAt_stepTree_data_lt hpidlt hxlt]
          rfl
        · rw [List.mem_singleton] at hxl
          subst hxl
          rw [childKey_midTree_new hpidlt, nodeAt_stepTree_data_new hpidlt]
      rw [map_sortBy (fun c => (nodeAt (stepTree s.tree i a) c).data)
        (stepLe s.tree i a) itemLe _
        (fun x hx y hy => by
          show strLe (childKey (midTree s.tree i a) x) (childKey (midTree s.tree i a) y) = _
          rw [hkeyc x hx, hkeyc y hy]
          rfl)]
      rw [List.map_append]
      have hmapold : (childrenOf s.tree i).map
          (fun c => (nodeAt (stepTree s.tree i a) c).data) =
          itemChildren done (pathAt s.tree i) := by
        rw [List.map_congr_left
          (fun c hc => nodeAt_stepTree_data_lt hpidlt (hwf.child_inc i c hc).2)]
        exact hsim.children_at i hpidlt
      have hmapnew : [s.tree.nodes.length].map
          (fun c => (nodeAt (stepTree s.tree i a) c).data) = [a] := by
        simp [nodeAt_stepTree_data_new hpidlt]
      rw [hmapold, hmapnew]
      exact itemChildren_snoc (hpidpath ▸ hparent) hval hvala hinj2
    · by_cases hil : i = s.tree.nodes.length
      · subst hil
        rw [childrenOf_stepTree_ne hpidlt hip, childrenOf_of_le (le_refl _),
          pathAt_stepTree_new hpidlt]
        show ([] : List Item) = _
        have hfil : (done ++ [a]).filter
            (fun e => decide (parentPath e.path = some a.path)) = [] := by
          rw [List.filter_eq_nil_iff]
          intro e he
          simp only [decide_eq_true_eq]
          intro hpe
          have hene : e.path ≠ [] := by
            intro h
            rw [h] at hpe
            exact absurd hpe (by simp [parentPath])
          rw [parentPath_eq_some hene] at hpe
          have hdl : e.path.dropLast.length = e.path.length - 1 :=
            List.length_dropLast _
          have hle : e.path.length ≤ a.path.length := by
            rcases List.mem_append.mp he with h1 | h2
            · exact hlen e h1
            · rw [List.mem_singleton] at h2
              rw [h2]
          have heq2 : e.path.dropLast = a.path := Option.some.inj hpe
          have hg : 0 < e.path.length := List.length_pos.mpr hene
          have : a.path.length = e.path.length - 1 := by rw [← heq2, hdl]
          have hane : a.path ≠ [] := hne
          have hag : 0 < a.path.length := List.length_pos.mpr hane
          omega
        show _ = itemChildren (done ++ [a]) a.path
        unfold itemChildren
        rw [hfil]
        rfl
      · have hi2 : i < s.tree.nodes.length := by omega
        rw [childrenOf_stepTree_ne hpidlt hip, pathAt_stepTree_lt hpidlt hi2]
        rw [List.map_congr_left
          (fun c hc => nodeAt_stepTree_data_lt hpidlt (hwf.child_inc i c hc).2)]
        rw [hsim.children_at i hi2]
        have hpne : a.path.dropLast ≠ pathAt s.tree i := by
          intro h
          exact hip (simRel_pathAt_inj hsim hndDone i pid hi2 hpidlt
            (h ▸ hpidpath).symm)
        unfold itemChildren
        rw [List.filter_append]
        have hfa : List.filter
            (fun e => decide (parentPath e.path = some (pathAt s.tree i))) [a] = [] := by
          simp only [List.filter, hparent]
          simp only [Option.some.injEq]
          rw [decide_eq_false (by exact hpne)]
        rw [hfa, List.append_nil]
  · intro i hi
    replace hi : i < (stepTree s.tree pid a).nodes.length := hi
    rw [stepTree_length] at hi
    show (s.node_id_map.insert (path_key a.path) s.tree.nodes.length)
      (path_key (pathAt (stepTree s.tree pid a) i)) = some i
    by_cases hil : i = s.tree.nodes.length
    · subst hil
      rw [pathAt_stepTree_new hpidlt]
      exact nodeIdMap_insert_self _ _ _
    · have hi2 : i < s.tree.nodes.length := by omega
      rw [pathAt_stepTree_lt hpidlt hi2]
      have hkne : path_key (pathAt s.tree i) ≠ path_key a.path := by
        intro hk
        have hpe : pathAt s.tree i = a.path :=
          path_key_inj _ _ (simRel_pathAt_valid hsim hvalr hval hi2) hvala hk
        rcases simRel_pathAt_mem hsim hi2 with h0 | hm
        · exact hafresh_root (by rw [← h0, hpe])
        · exact hafresh_done (by rw [← hpe]; exact hm)
      unfold NodeIdMap.insert
      rw [if_neg hkne]
      exact hsim.map_keys i hi2
  · intro k hk
    have hka : k ≠ path_key a.path := by
      have hkl := hk s.tree.nodes.length (by rw [stepTree_length]; omega)
      rwa [pathAt_stepTree_new hpidlt] at hkl
    show (s.node_id_map.insert (path_key a.path) s.tree.nodes.length) k = none
    unfold NodeIdMap.insert
    rw [if_neg hka]
    refine hsim.map_none k ?_
    intro i hi2
    have hki := hk i (by rw [stepTree_length]; omega)
    rwa [pathAt_stepTree_lt hpidlt hi2] at hki

/-- Running the loop over a worklist of entries whose parents are already
present (or will be, strictly earlier in the depth-sorted order) keeps the
simulation. -/
theorem simRel_run {root : List String} (full : List Item)
    (hvalr : validSegs root) (hval : ∀ e ∈ full, validSegs e.path)
    (hnd : (root :: full.map Item.path).Nodup)
    (hsorted : full.Pairwise (fun x y => x.path.length ≤ y.path.length)) :
    ∀ (todo done after : List Item) (s : BuildState),
      full = done ++ todo ++ after →
      (∀ b ∈ todo, b.path ≠ [] ∧ (b.path.dropLast = root ∨
        ∃ e ∈ full, e.path = b.path.dropLast)) →
      Wf s → SimRel root done s →
      ∃ s2, processItems s todo = .ok s2 ∧ Wf s2 ∧
        SimRel root (done ++ todo) s2 := by
  intro todo
  induction todo with
  | nil =>
    intro done after s hfull hP hwf hsim
    exact ⟨s, rfl, hwf, by rwa [List.append_nil]⟩
  | cons a rest ih =>
    intro done after s hfull hP hwf hsim
    obtain ⟨hne, hpar⟩ := hP a (List.mem_cons_self _ _)
    have hfull2 : full = (done ++ [a]) ++ (rest ++ after) := by
      rw [hfull]
      simp
    have hsub : ∀ e ∈ done ++ [a], e ∈ full := by
      intro e he
      rw [hfull2]
      exact List.mem_append_left _ he
    have hvaldone : ∀ e ∈ done, validSegs e.path := fun e he =>
      hval e (hsub e (List.mem_append_left _ he))
    have hvala : validSegs a.path :=
      hval a (hsub a (List.mem_append_right _ (by simp)))
    have hnd2 : (root :: (done ++ [a]).map Item.path).Nodup := by
      refine List.Nodup.sublist ?_ hnd
      refine List.Sublist.cons₂ root ?_
      refine List.Sublist.map Item.path ?_
      rw [hfull2]
      exact List.sublist_append_left _ _
    have hs2 := hsorted
    rw [hfull] at hs2
    rw [List.pairwise_append, List.pairwise_append] at hs2
    have hlen2 : ∀ e ∈ done, e.path.length ≤ a.path.length := fun e he =>
      hs2.1.2.2 e he a (List.mem_cons_self _ _)
    have hrest_le : ∀ e ∈ rest, a.path.length ≤ e.path.length :=
      (List.pairwise_cons.mp hs2.1.2.1).1
    have hafter_le : ∀ e ∈ after, a.path.length ≤ e.path.length := fun e he =>
      hs2.2.2 a (List.mem_append_right _ (List.mem_cons_self _ _)) e he
    have hpardone : a.path.dropLast = root ∨ ∃ e ∈ done, e.path = a.path.dropLast := by
      rcases hpar with hroot | ⟨e, he, hep⟩
      · exact Or.inl hroot
      · refine Or.inr ⟨e, ?_, hep⟩
        have hlt : e.path.length < a.path.length := by
          rw [hep, List.length_dropLast]
          have : 0 < a.path.length := List.length_pos.mpr hne
          omega
        rw [hfull] at he
        rcases List.mem_append.mp he with h1 | h2
        · rcases List.mem_append.mp h1 with hd | ht
          · exact hd
          · rcases List.mem_cons.mp ht with rfl | hr
            · omega
            · have := hrest_le e hr
              omega
        · have := hafter_le e h2
          omega
    obtain ⟨s2, hins, hsim2⟩ := simRel_step hvalr hvaldone hvala hnd2 hlen2
      hwf hsim hne hpardone
    have hwf2 : Wf s2 := wf_insertItem hwf hins
    obtain ⟨s3, hrun3, hwf3, hsim3⟩ := ih (done ++ [a]) after s2
      (by rw [hfull2]; simp) (fun b hb => hP b (List.mem_cons_of_mem _ hb)) hwf2 hsim2
    refine ⟨s3, ?_, hwf3, ?_⟩
    · show (match insertItem s a with
        | Except.error e => Except.error e
        | Except.ok s4 => processItems s4 rest) = Except.ok s3
      rw [hins]
      exact hrun3
    · have heq : (done ++ [a]) ++ rest = done ++ a :: rest := by simp
      rwa [heq] at hsim3

/-- The pre-order path listing of the final state is the canonical one. -/
theorem simRel_preorder {root : List String} {L : List Item} {s : BuildState}
    (hwf : Wf s) (hsim : SimRel root L s) :
    preorderPaths s.tree = canonPreAux L (s.tree.nodes.length) root := by
  have hbridge : ∀ f i, i < s.tree.nodes.length →
      (preorderAux s.tree f i).map (pathAt s.tree) =
        canonPreAux L f (pathAt s.tree i) := by
    intro f
    induction f with
    | zero => intro i _; rfl
    | succ f ih =>
      intro i hi
      show pathAt s.tree i :: _ = pathAt s.tree i :: _
      congr 1
      rw [List.map_flatMap]
      have hcong : ((childrenOf s.tree i).flatMap
            fun c => (preorderAux s.tree f c).map (pathAt s.tree)) =
          (childrenOf s.tree i).flatMap fun c => canonPreAux L f (pathAt s.tree c) :=
        List.flatMap_congr fun c hc => ih c (hwf.child_inc i c hc).2
      rw [hcong]
      rw [← hsim.children_at i hi, List.flatMap_map]
      rfl
  unfold preorderPaths preorderIds
  rw [hwf.root_eq]
  rw [hbridge s.tree.nodes.length 0 hwf.pos, simRel_path0 hsim]

theorem first_violation {α : Type} (P : α → Prop) [DecidablePred P] :
    ∀ (l : List α), (∃ x ∈ l, ¬ P x) →
      ∃ l1 x l2, l = l1 ++ x :: l2 ∧ ¬ P x ∧ ∀ y ∈ l1, P y := by
  intro l
  induction l with
  | nil =>
    intro h
    obtain ⟨x, hx, _⟩ := h
    exact absurd hx (List.not_mem_nil x)
  | cons a l ih =>
    intro h
    by_cases hPa : P a
    · have h2 : ∃ x ∈ l, ¬ P x := by
        obtain ⟨x, hx, hnx⟩ := h
        rcases List.mem_cons.mp hx with rfl | hxl
        · exact absurd hPa hnx
        · exact ⟨x, hxl, hnx⟩
      obtain ⟨l1, x, l2, heq, hnx, hall⟩ := ih h2
      refine ⟨a :: l1, x, l2, by rw [heq]; rfl, hnx, ?_⟩
      intro y hy
      rcases List.mem_cons.mp hy with rfl | hyl
      · exact hPa
      · exact hall y hyl
    · exact ⟨[], a, l, rfl, hPa, fun y hy => absurd hy (List.not_mem_nil y)⟩

/-- An entry with an empty path makes the build abort at the
`item doesn't have parent path` panic site (it sorts to the very front). -/
theorem buildTree_noParent {root : List String} {items : List Item}
    (h : ∃ e ∈ items, e.path = []) :
    buildTree root items = .error .panicNoParent := by
  obtain ⟨e, he, hep⟩ := h
  have hes : e ∈ sortItems items := mem_sortBy.mpr he
  cases hsort : sortItems items with
  | nil =>
    rw [hsort] at hes
    exact absurd hes (List.not_mem_nil e)
  | cons b rest =>
    have hb : b.path = [] := by
      rw [hsort] at hes
      rcases List.mem_cons.mp hes with rfl | hr
      · exact hep
      · have hp := sortItems_pairwise items
        rw [hsort] at hp
        have hble := (List.pairwise_cons.mp hp).1 e hr
        rw [hep] at hble
        simp only [List.length_nil, Nat.le_zero] at hble
        exact List.length_eq_zero.mp hble
    have hins : insertItem (initState root) b = .error .panicNoParent := by
      refine insertItem_noParent ?_
      rw [hb]
      rfl
    have hrun : processItems (initState root) (b :: rest) = .error .panicNoParent := by
      show (match insertItem (initState root) b with
        | Except.error e => Except.error e
        | Except.ok s2 => processItems s2 rest) = _
      rw [hins]
    unfold buildTree
    rw [hsort, hrun]

/-- If no entry has an empty path but some entry's parent is neither the
root nor another entry, the build aborts at the
`parent not in node id map` panic site. -/
theorem buildTree_orphan {root : List String} {items : List Item}
    (hvalr : validSegs root) (hval : ∀ e ∈ items, validSegs e.path)
    (hnd : (root :: items.map Item.path).Nodup)
    (hnil : ∀ e ∈ items, e.path ≠ [])
    (h : ∃ e ∈ items, ¬ parentPresent root items e) :
    buildTree root items = .error .panicOrphan := by
  have hperm : (sortItems items).Perm items := sortBy_perm _ _
  have hvalL : ∀ e ∈ sortItems items, validSegs e.path := fun e he =>
    hval e (hperm.mem_iff.mp he)
  have hndL : (root :: (sortItems items).map Item.path).Nodup :=
    ((hperm.map Item.path).cons root).nodup_iff.mpr hnd
  have hsortedL := sortItems_pairwise items
  have hviol : ∃ x ∈ sortItems items, ¬ parentPresent root items x := by
    obtain ⟨e, he, hne⟩ := h
    exact ⟨e, hperm.mem_iff.mpr he, hne⟩
  obtain ⟨done, b, rest, hsplit, hbP, hdoneP⟩ :=
    first_violation (parentPresent root items) (sortItems items) hviol
  have hPdone : ∀ y ∈ done, y.path ≠ [] ∧ (y.path.dropLast = root ∨
      ∃ e ∈ sortItems items, e.path = y.path.dropLast) := by
    intro y hy
    have hyL : y ∈ sortItems items := by
      rw [hsplit]
      exact List.mem_append_left _ hy
    refine ⟨hnil y (hperm.mem_iff.mp hyL), ?_⟩
    rcases hdoneP y hy with hroot | ⟨e, he, hep⟩
    · exact Or.inl hroot
    · exact Or.inr ⟨e, hperm.mem_iff.mpr he, hep⟩
  obtain ⟨s2, hrun, hwf2, hsim2⟩ := simRel_run (sortItems items) hvalr hvalL
    hndL hsortedL done [] (b :: rest) (initState root) (by rw [hsplit]; simp)
    hPdone (wf_initState root) (simRel_init root)
  rw [List.nil_append] at hsim2
  have hbL : b ∈ sortItems items := by
    rw [hsplit]
    exact List.mem_append_right _ (List.mem_cons_self _ _)
  have hbne : b.path ≠ [] := hnil b (hperm.mem_iff.mp hbL)
  have hparb : parentPath b.path = some b.path.dropLast := parentPath_eq_some hbne
  have hvald : validSegs b.path.dropLast := by
    intro x hx
    exact hvalL b hbL x (List.dropLast_subset _ hx)
  have hnone : s2.node_id_map (path_key b.path.dropLast) = none := by
    refine hsim2.map_none _ ?_
    intro i hi hk
    have hpath : b.path.dropLast = pathAt s2.tree i :=
      path_key_inj _ _ hvald
        (simRel_pathAt_valid hsim2 hvalr
          (fun e he => hvalL e (by rw [hsplit]; exact List.mem_append_left _ he)) hi)
        hk
    rcases simRel_pathAt_mem hsim2 hi with h0 | hm
    · exact hbP (Or.inl (by rw [hpath, h0]))
    · obtain ⟨e, he, hep⟩ := List.mem_map.mp hm
      refine hbP (Or.inr ⟨e, ?_, ?_⟩)
      · exact hperm.mem_iff.mp (by rw [hsplit]; exact List.mem_append_left _ he)
      · rw [hep, ← hpath]
  have hins : insertItem s2 b = .error .panicOrphan := insertItem_orphan hparb hnone
  have hrun2 : processItems s2 (b :: rest) = .error .panicOrphan := by
    show (match insertItem s2 b with
      | Except.error e => Except.error e
      | Except.ok s3 => processItems s3 rest) = _
    rw [hins]
  unfold buildTree
  rw [hsplit, processItems_append, hrun]
  show (match processItems s2 (b :: rest) with
    | Except.error e => Except.error e
    | Except.ok s => Except.ok s.tree) = _
  rw [hrun2]

/-- Full order-free characterization of a build over well-formed, distinct
paths: an empty-path entry gives the no-parent abort, a missing parent gives
the orphan abort, and otherwise the pre-order output is the canonical
listing computed from the entry set. -/
theorem buildTree_characterization {root : List String} {items : List Item}
    (hvalr : validSegs root) (hval : ∀ e ∈ items, validSegs e.path)
    (hnd : (root :: items.map Item.path).Nodup) :
    (buildTree root items).map preorderPaths =
      if ∃ e ∈ items, e.path = [] then .error .panicNoParent
      else if ∃ e ∈ items, ¬ parentPresent root items e then .error .panicOrphan
      else .ok (canonPreAux items (items.length + 1) root) := by
  by_cases h1 : ∃ e ∈ items, e.path = []
  · rw [if_pos h1, buildTree_noParent h1]
    rfl
  · rw [if_neg h1]
    push_neg at h1
    by_cases h2 : ∃ e ∈ items, ¬ parentPresent root items e
    · rw [if_pos h2, buildTree_orphan hvalr hval hnd h1 h2]
      rfl
    · rw [if_neg h2]
      push_neg at h2
      have hperm : (sortItems items).Perm items := sortBy_perm _ _
      have hvalL : ∀ e ∈ sortItems items, validSegs e.path := fun e he =>
        hval e (hperm.mem_iff.mp he)
      have hndL : (root :: (sortItems items).map Item.path).Nodup :=
        ((hperm.map Item.path).cons root).nodup_iff.mpr hnd
      have hsortedL := sortItems_pairwise items
      have hPL : ∀ b ∈ sortItems items, b.path ≠ [] ∧ (b.path.dropLast = root ∨
          ∃ e ∈ sortItems items, e.path = b.path.dropLast) := by
        intro b hb
        have hbi : b ∈ items := hperm.mem_iff.mp hb
        refine ⟨h1 b hbi, ?_⟩
        rcases h2 b hbi with hroot | ⟨e, he, hep⟩
        · exact Or.inl hroot
        · exact Or.inr ⟨e, hperm.mem_iff.mpr he, hep⟩
      obtain ⟨s2, hrun, hwf2, hsim2⟩ := simRel_run (sortItems items) hvalr hvalL
        hndL hsortedL (sortItems items) [] [] (initState root) (by simp) hPL
        (wf_initState root) (simRel_init root)
      rw [List.nil_append] at hsim2
      have hbt : buildTree root items = .ok s2.tree := by
        unfold buildTree
        rw [hrun]
      rw [hbt]
      show Except.ok (preorderPaths s2.tree) = _
      rw [simRel_preorder hwf2 hsim2]
      have hlen2 : s2.tree.nodes.length = items.length + 1 := by
        rw [hsim2.len_eq, hperm.length_eq]
      rw [hlen2]
      have hinjL : ∀ x ∈ sortItems items, ∀ y ∈ sortItems items,
          x.path = y.path → x = y := by
        intro x hx y hy hxy
        exact List.inj_on_of_nodup_map ((List.nodup_cons.mp hndL).2) hx hy hxy
      rw [canonPreAux_perm hperm hvalL hinjL (items.length + 1) root]

/-! ## Claims -/

/-- C1: if the insertion loop reaches an entry whose filesystem-parent path
has no node registered in the path-to-handle index at that moment, the whole
build aborts with the orphan-entry failure (the `parent not in node id map`
abort) and returns no tree at all — the orphan is not silently dropped. -/
theorem claim_C1 : ∀ (root : List String) (items : List Item)
    (pre : List Item) (a : Item) (rest : List Item) (par : List String)
    (s : BuildState),
    sortItems items = pre ++ a :: rest →
    processItems (initState root) pre = .ok s →
    parentPath a.path = some par →
    s.node_id_map (path_key par) = none →
    buildTree root items = .error .panicOrphan := by
  intro root items pre a rest par s hsort hpre hpar hnone
  have hfail : processItems (initState root) (sortItems items) =
      .error .panicOrphan := by
    rw [hsort, processItems_append, hpre]
    show processItems s (a :: rest) = _
    simp only [processItems, insertItem_orphan hpar hnone]
  unfold buildTree
  rw [hfail]

/-- Witness for C1: a synthetic entry list under root `t` that skips the
intermediate ancestor `t/a` makes the build abort with the orphan
failure. -/
theorem claim_C1_witness :
    buildTree ["t"] [⟨["t", "a", "b"], true⟩] = .error .panicOrphan :=
  claim_C1 ["t"] [⟨["t", "a", "b"], true⟩] [] ⟨["t", "a", "b"], true⟩ []
    ["t", "a"] (initState ["t"]) rfl rfl rfl (by decide)

/-- C2: in every tree the builder returns, each node's children are in
ascending lexicographic order of their slash-joined path key — and the same
holds for every intermediate state after each insertion of the loop.
Consequently the pre-order traversal visits every node before each of its
strict descendants, and visits siblings in ascending lexicographic order of
their keys. -/
theorem claim_C2 : ∀ (root : List String) (items : List Item) (t : IdTree),
    buildTree root items = .ok t →
    (∀ i, (childrenOf t i).Pairwise
        (fun a b => strLe (childKey t a) (childKey t b) = true)) ∧
    (∀ pre suf s, sortItems items = pre ++ suf →
        processItems (initState root) pre = .ok s →
        ∀ i, (childrenOf s.tree i).Pairwise
          (fun a b => strLe (childKey s.tree a) (childKey s.tree b) = true)) ∧
    (∀ n d, Desc t n d → n ≠ d → before n d (preorderIds t)) ∧
    (∀ (i p q c1 c2 : Nat), p < q →
        (childrenOf t i)[p]? = some c1 → (childrenOf t i)[q]? = some c2 →
        before c1 c2 (preorderIds t) ∧
        strLe (childKey t c1) (childKey t c2) = true) := by
  intro root items t hbuild
  obtain ⟨s', hrun, rfl⟩ := buildTree_ok_inv hbuild
  have hwf : Wf s' := wf_processItems (wf_initState root) hrun
  have hinc : childBounds s'.tree := hwf.child_inc
  have hpreor : preorderIds s'.tree = subtree s'.tree 0 := by
    unfold preorderIds subtree
    rw [hwf.root_eq]
  refine ⟨hwf.sorted_children, ?_, ?_, ?_⟩
  · intro pre suf s hsplit hrun2 i
    exact (wf_processItems (wf_initState root) hrun2).sorted_children i
  · intro n d hdesc hne
    by_cases hn : n < s'.tree.nodes.length
    · have hb := desc_before hinc hn hdesc hne
      rw [hpreor]
      exact before_segWithin hb (desc_segWithin hinc (hwf.reach n hn) hwf.pos)
    · exact absurd (desc_of_out hdesc (le_of_not_lt hn)).symm hne
  · intro i p q c1 c2 hpq h1 h2
    have hi : i < s'.tree.nodes.length := by
      by_contra hno
      rw [childrenOf_of_le (le_of_not_lt hno)] at h1
      simp at h1
    constructor
    · rw [hpreor]
      refine before_segWithin ?_ (desc_segWithin hinc (hwf.reach i hi) hwf.pos)
      rw [subtree_eq hinc hi]
      refine before_segWithin ?_ (segWithin_cons i (segWithin_refl _))
      exact before_flatMap (childrenOf s'.tree i) p q c1 c2
        (fun c hc => (hinc i c hc).2) hpq h1 h2
    · have hpw := hwf.sorted_children i
      rw [List.pairwise_iff_getElem] at hpw
      rcases List.getElem?_eq_some_iff.mp h1 with ⟨hl1, he1⟩
      rcases List.getElem?_eq_some_iff.mp h2 with ⟨hl2, he2⟩
      have hrel := hpw p q hl1 hl2 hpq
      rwa [he1, he2] at hrel

/-- Witness for C2: a concrete build over two files discovered in reverse
name order; the builder's tree has sorted children everywhere. -/
theorem claim_C2_witness :
    ∃ t, buildTree ["r"] [⟨["r", "b"], true⟩, ⟨["r", "a"], true⟩] = .ok t ∧
      (∀ i, (childrenOf t i).Pairwise
        (fun a b => strLe (childKey t a) (childKey t b) = true)) :=
  ⟨_, rfl, (claim_C2 ["r"] [⟨["r", "b"], true⟩, ⟨["r", "a"], true⟩] _ rfl).1⟩

/-- C3: for a complete entry list under the root the depth-ascending sort
guarantees the single insertion pass always finds the parent: the build
succeeds, and at every split of the sorted worklist the next entry's parent
key resolves in the index to a live node of the tree built so far. -/
theorem claim_C3 : ∀ (root : List String) (items : List Item),
    completeUnder root items →
    (∃ t, buildTree root items = .ok t) ∧
    (∀ pre a rest, sortItems items = pre ++ a :: rest →
      ∃ s par pid, processItems (initState root) pre = .ok s ∧
        parentPath a.path = some par ∧
        s.node_id_map (path_key par) = some pid ∧
        pid < s.tree.nodes.length) := by
  intro root items hcomp
  have hbnd0 := (wf_initState root).map_bounded
  have hcov : ∀ a ∈ sortItems items, ∃ par, parentPath a.path = some par ∧
      (((initState root).node_id_map (path_key par)).isSome ∨
        ∃ a2 ∈ sortItems items, path_key a2.path = path_key par ∧
          a2.path.length < a.path.length) := by
    intro a ha
    have hmem := mem_sortBy.mp ha
    obtain ⟨⟨hlen, htake⟩, hanc⟩ := hcomp a hmem
    have hne : a.path ≠ [] := by
      intro h
      rw [h] at hlen
      simp at hlen
    refine ⟨a.path.dropLast, parentPath_eq_some hne, ?_⟩
    have hdrop : a.path.dropLast = a.path.take (a.path.length - 1) :=
      List.dropLast_eq_take _
    rcases hanc (a.path.length - 1) (by omega) (by omega) with hroot | ⟨e2, he2, hpe2⟩
    · refine Or.inl ?_
      rw [hdrop, hroot]
      show ((NodeIdMap.empty.insert (path_key root) 0) (path_key root)).isSome
      rw [nodeIdMap_insert_self]
      rfl
    · refine Or.inr ⟨e2, mem_sortBy.mpr he2, by rw [hpe2, hdrop], ?_⟩
      rw [hpe2, List.length_take]
      omega
  obtain ⟨s2, hrun, _, _, _, _⟩ := processItems_total (sortItems items)
    (initState root) hbnd0 (sortItems_pairwise items) hcov
  constructor
  · refine ⟨s2.tree, ?_⟩
    unfold buildTree
    rw [hrun]
  · intro pre a rest hsplit
    rw [hsplit] at hrun
    obtain ⟨s1, hpre, hrest⟩ := processItems_ok_split hrun
    obtain ⟨s1b, hins, _⟩ := processItems_cons_ok hrest
    obtain ⟨par, pid, hpar, hm, hpid, _⟩ := insertItem_ok_inv hins
    exact ⟨s1, par, pid, hpre, hpar, hm, hpid⟩

/-- Witness for C3: a two-entry complete list under root `r` (child and
grandchild) builds successfully. -/
theorem claim_C3_witness :
    ∃ t, buildTree ["r"] [⟨["r", "a", "b"], true⟩, ⟨["r", "a"], false⟩] = .ok t :=
  (claim_C3 ["r"] [⟨["r", "a", "b"], true⟩, ⟨["r", "a"], false⟩] (by decide)).1

/-- C10: if every entry has a filesystem parent whose canonical key is the
root's key or the key of some strictly shallower entry, the insertion loop
reaches neither of its two panic branches and the build returns a tree. -/
theorem claim_C10 : ∀ (root : List String) (items : List Item),
    (∀ e ∈ items, ∃ par, parentPath e.path = some par ∧
      (path_key par = path_key root ∨
        ∃ e2 ∈ items, e2.path.length < e.path.length ∧
          path_key par = path_key e2.path)) →
    (∃ t, buildTree root items = .ok t) ∧
    (∀ pre a rest, sortItems items = pre ++ a :: rest →
      ∃ s par pid, processItems (initState root) pre = .ok s ∧
        parentPath a.path = some par ∧
        s.node_id_map (path_key par) = some pid) := by
  intro root items hpar
  have hbnd0 := (wf_initState root).map_bounded
  have hcov : ∀ a ∈ sortItems items, ∃ par, parentPath a.path = some par ∧
      (((initState root).node_id_map (path_key par)).isSome ∨
        ∃ a2 ∈ sortItems items, path_key a2.path = path_key par ∧
          a2.path.length < a.path.length) := by
    intro a ha
    obtain ⟨par, hp, hc⟩ := hpar a (mem_sortBy.mp ha)
    refine ⟨par, hp, ?_⟩
    rcases hc with hroot | ⟨e2, he2, hlen2, hkey2⟩
    · refine Or.inl ?_
      show ((NodeIdMap.empty.insert (path_key root) 0) (path_key par)).isSome
      rw [nodeIdMap_insert_eq_of_key hroot]
      rfl
    · exact Or.inr ⟨e2, mem_sortBy.mpr he2, hkey2.symm, hlen2⟩
  obtain ⟨s2, hrun, _, _, _, _⟩ := processItems_total (sortItems items)
    (initState root) hbnd0 (sortItems_pairwise items) hcov
  constructor
  · refine ⟨s2.tree, ?_⟩
    unfold buildTree
    rw [hrun]
  · intro pre a rest hsplit
    rw [hsplit] at hrun
    obtain ⟨s1, hpre, hrest⟩ := processItems_ok_split hrun
    obtain ⟨s1b, hins, _⟩ := processItems_cons_ok hrest
    obtain ⟨par, pid, hp, hm, _, _⟩ := insertItem_ok_inv hins
    exact ⟨s1, par, pid, hpre, hp, hm⟩

/-- Witness for C10: a single entry directly under the root satisfies the
parent-key condition, and the build returns a tree. -/
theorem claim_C10_witness :
    ∃ t, buildTree ["r"] [⟨["r", "x"], true⟩] = .ok t :=
  (claim_C10 ["r"] [⟨["r", "x"], true⟩]
    (fun e he => by
      rcases List.mem_singleton.mp he with rfl
      exact ⟨["r"], rfl, Or.inl rfl⟩)).1

/-- C4: over the same set of well-formed, path-distinct entries under the
same root, two builds produce identical results up to the pre-order path
sequence, for every pair of discovery orders: the order in which entries
are supplied never leaks into the output. -/
theorem claim_C4 : ∀ (root : List String) (l1 l2 : List Item),
    l1.Perm l2 →
    validSegs root →
    (∀ e ∈ l1, validSegs e.path) →
    (root :: l1.map Item.path).Nodup →
    (buildTree root l1).map preorderPaths =
      (buildTree root l2).map preorderPaths := by
  intro root l1 l2 hperm hvalr hval hnd
  have hval2 : ∀ e ∈ l2, validSegs e.path := fun e he =>
    hval e (hperm.mem_iff.mpr he)
  have hnd2 : (root :: l2.map Item.path).Nodup :=
    ((hperm.map Item.path).cons root).nodup_iff.mp hnd
  have hinj : ∀ x ∈ l1, ∀ y ∈ l1, x.path = y.path → x = y := fun x hx y hy hxy =>
    List.inj_on_of_nodup_map ((List.nodup_cons.mp hnd).2) hx hy hxy
  rw [buildTree_characterization hvalr hval hnd,
    buildTree_characterization hvalr hval2 hnd2]
  have he1 : (∃ e ∈ l1, e.path = []) ↔ (∃ e ∈ l2, e.path = []) := by
    constructor
    · rintro ⟨e, he, hp⟩
      exact ⟨e, hperm.mem_iff.mp he, hp⟩
    · rintro ⟨e, he, hp⟩
      exact ⟨e, hperm.mem_iff.mpr he, hp⟩
  have hpp : ∀ e, parentPresent root l1 e ↔ parentPresent root l2 e := by
    intro e
    unfold parentPresent
    constructor
    · rintro (h | ⟨x, hx, hxe⟩)
      · exact Or.inl h
      · exact Or.inr ⟨x, hperm.mem_iff.mp hx, hxe⟩
    · rintro (h | ⟨x, hx, hxe⟩)
      · exact Or.inl h
      · exact Or.inr ⟨x, hperm.mem_iff.mpr hx, hxe⟩
  have he2 : (∃ e ∈ l1, ¬ parentPresent root l1 e) ↔
      (∃ e ∈ l2, ¬ parentPresent root l2 e) := by
    constructor
    · rintro ⟨e, he, hn⟩
      exact ⟨e, hperm.mem_iff.mp he, fun hc => hn ((hpp e).mpr hc)⟩
    · rintro ⟨e, he, hn⟩
      exact ⟨e, hperm.mem_iff.mpr he, fun hc => hn ((hpp e).mp hc)⟩
  refine if_congr he1 rfl (if_congr he2 rfl ?_)
  rw [canonPreAux_perm hperm hval hinj (l1.length + 1) root, hperm.length_eq]

/-- Witness for C4: the same two entries discovered in opposite orders give
identical pre-order output. -/
theorem claim_C4_witness :
    (buildTree ["r"] [⟨["r", "a"], true⟩, ⟨["r", "b"], false⟩]).map preorderPaths =
      (buildTree ["r"] [⟨["r", "b"], false⟩, ⟨["r", "a"], true⟩]).map preorderPaths :=
  claim_C4 ["r"] [⟨["r", "a"], true⟩, ⟨["r", "b"], false⟩]
    [⟨["r", "b"], false⟩, ⟨["r", "a"], true⟩]
    (by decide) (by decide) (by decide) (by decide)

/-- C5: when the requested path is a regular file, `create_file_tree`
returns the one-node tree holding `{path, is_file: true}`, with pre-order
sequence exactly `[path]`, for either value of `use_git_ignore`, and the
result does not depend on the directory-walk stream at all. -/
theorem claim_C5 : ∀ (path : List String)
    (steps : List (Except Nat DirEntry)) (ugi : Bool),
    create_file_tree path true steps ugi = .ok (single_file_tree path) ∧
    preorderPaths (single_file_tree path) = [path] ∧
    (nodeAt (single_file_tree path) 0).data.is_file = true ∧
    (nodeAt (single_file_tree path) 0).data.path = path ∧
    (single_file_tree path).nodes.length = 1 ∧
    ∀ (steps2 : List (Except Nat DirEntry)) (ugi2 : Bool),
      create_file_tree path true steps ugi = create_file_tree path true steps2 ugi2 :=
  fun _ _ _ => ⟨rfl, rfl, rfl, rfl, rfl, fun _ _ => rfl⟩

/-- C6: the `use_git_ignore` flag is accepted but has no effect: for every
path, file/directory answer and walker stream, the two flag values produce
identical results, both for `walk_dir` and for `create_file_tree`. -/
theorem claim_C6 : ∀ (path : List String) (path_is_file : Bool)
    (steps : List (Except Nat DirEntry)),
    create_file_tree path path_is_file steps true =
      create_file_tree path path_is_file steps false ∧
    walk_dir path steps true = walk_dir path steps false :=
  fun _ _ _ => ⟨rfl, rfl⟩

/-- C7: the builder creates the root node `{path: root, is_file: false}`
unconditionally before processing any entry (node id `0`), registers the
root's canonical key in the index, every successful build returns a tree
whose single root is that node, and the empty entry list yields exactly the
one-node root tree. -/
theorem claim_C7 : ∀ (root : List String),
    (initState root).tree = ⟨[⟨⟨root, false⟩, []⟩], some 0⟩ ∧
    (initState root).node_id_map (path_key root) = some 0 ∧
    (∀ (items : List Item) (t : IdTree), buildTree root items = .ok t →
      t.root = some 0 ∧ 0 < t.nodes.length ∧ (nodeAt t 0).data = ⟨root, false⟩) ∧
    buildTree root [] = .ok ⟨[⟨⟨root, false⟩, []⟩], some 0⟩ := by
  intro root
  refine ⟨rfl, ?_, ?_, rfl⟩
  · show (if path_key root = path_key root then some 0 else none) = some 0
    rw [if_pos rfl]
  · intro items t h
    obtain ⟨s', hs, rfl⟩ := buildTree_ok_inv h
    obtain ⟨hr, hl, hd⟩ := processItems_preserves hs
    have h1 : (initState root).tree.nodes.length = 1 := rfl
    refine ⟨hr, by omega, ?_⟩
    rw [hd 0 (by omega)]
    rfl

/-- Witness for C7: building over root `r` with no entries returns exactly
the one-node root tree, whose root id is `0`. -/
theorem claim_C7_witness :
    buildTree ["r"] [] = .ok ⟨[⟨⟨["r"], false⟩, []⟩], some 0⟩ ∧
    (⟨[⟨⟨["r"], false⟩, []⟩], some 0⟩ : IdTree).root = some 0 :=
  ⟨(claim_C7 ["r"]).2.2.2, ((claim_C7 ["r"]).2.2.1 [] _ (claim_C7 ["r"]).2.2.2).1⟩

/-- C8: if any step of the walk — the stream itself or a metadata fetch —
yields an error, the whole collection aborts with that error and
`create_file_tree` returns the failure: no partial tree is observable. -/
theorem claim_C8 : ∀ (path : List String) (ugi : Bool)
    (pre : List (Except Nat DirEntry)) (st : Except Nat DirEntry)
    (rest : List (Except Nat DirEntry)) (e : Nat),
    (∀ s ∈ pre, stepOk s) → stepErr st e →
    walk_dir path (pre ++ st :: rest) ugi = .error (.walkError e) ∧
    create_file_tree path false (pre ++ st :: rest) ugi = .error (.walkError e) := by
  intro path ugi pre st rest e hpre hst
  refine ⟨walk_dir_error ugi hpre hst, ?_⟩
  show walk_dir path (pre ++ st :: rest) ugi = _
  exact walk_dir_error ugi hpre hst

/-- Witness for C8: a stream whose second step fails with I/O error `7`
aborts the whole build with exactly that error, discarding the entry
already collected and never looking at the rest of the stream. -/
theorem claim_C8_witness :
    walk_dir ["r"] ([.ok ⟨["r", "a"], .ok ⟨false⟩⟩] ++ .error 7 ::
        [.ok ⟨["r", "b"], .ok ⟨true⟩⟩]) true = .error (.walkError 7) ∧
    create_file_tree ["r"] false ([.ok ⟨["r", "a"], .ok ⟨false⟩⟩] ++ .error 7 ::
        [.ok ⟨["r", "b"], .ok ⟨true⟩⟩]) true = .error (.walkError 7) :=
  claim_C8 ["r"] true [.ok ⟨["r", "a"], .ok ⟨false⟩⟩] (.error 7)
    [.ok ⟨["r", "b"], .ok ⟨true⟩⟩] 7
    (fun s hs => by
      rcases List.mem_singleton.mp hs with rfl
      exact ⟨_, _, rfl, rfl⟩)
    (Or.inl rfl)

/-- C9: on well-formed path components the canonical key — the components
joined by `/` with no trailing separator — is a faithful identity: two
paths receive equal keys exactly when they are the same segment
sequence. -/
theorem claim_C9 : ∀ (p q : List String), validSegs p → validSegs q →
    (path_key p = path_key q ↔ p = q) :=
  fun p q hp hq => ⟨path_key_inj p q hp hq, fun h => by rw [h]⟩

/-- Witness for C9: the segment lists `[a, b]` and `[ab]` are well formed,
and their keys (`a/b` vs `ab`) differ exactly as the paths do. -/
theorem claim_C9_witness :
    path_key ["a", "b"] = path_key ["ab"] ↔ ["a", "b"] = ["ab"] :=
  claim_C9 ["a", "b"] ["ab"] (by decide) (by decide)

end Gzpi
